import Mathlib

/-!
Verification development for the erdos-solver sparse-signature core.

The JavaScript sources are shallowly embedded as Lean definitions:
  - byte arrays (Uint8Array) become lists of naturals, each entry a byte;
  - 64-bit BigInt arithmetic masked with 0xffffffffffffffff becomes Nat
    arithmetic reduced mod 2^64;
  - finite IEEE doubles are modelled as exact rationals; values produced by
    Math.sqrt are modelled as real numbers via Real.sqrt;
  - code that throws becomes Except String;
  - a second model (JNum) extends the rationals with infinities and NaN to
    settle claims about non-finite inputs.
-/

set_option maxHeartbeats 1000000
set_option maxRecDepth 100000

attribute [local semireducible] Rat.add Rat.sub Rat.mul Rat.inv

/-- 64-bit mask, the model of the BigInt literal 0xffffffffffffffffn. -/
def mask64 : Nat := 2 ^ 64 - 1

/-- BLAKE2b initialisation vector (usad.js, IV). -/
def blakeIV : List Nat :=
  [0x6a09e667f3bcc908, 0xbb67ae8584caa73b, 0x3c6ef372fe94f82b, 0xa54ff53a5f1d36f1,
   0x510e527fade682d1, 0x9b05688c2b3e6c1f, 0x1f83d9abfb41bd6b, 0x5be0cd19137e2179]

/-- BLAKE2b message schedule (usad.js, SIGMA). -/
def blakeSigma : List (List Nat) :=
  [[0,1,2,3,4,5,6,7,8,9,10,11,12,13,14,15],
   [14,10,4,8,9,15,13,6,1,12,0,2,11,7,5,3],
   [11,8,12,0,5,2,15,13,10,14,3,6,7,1,9,4],
   [7,9,3,1,13,12,11,14,2,6,5,10,4,0,15,8],
   [9,0,5,7,2,4,10,15,14,1,11,12,6,8,3,13],
   [2,12,6,10,4,7,15,14,1,11,9,5,3,13,8,0],
   [12,5,1,15,14,13,4,10,0,7,6,3,9,2,8,11],
   [13,11,7,14,12,1,3,9,5,0,15,4,8,6,2,10],
   [6,15,14,9,11,3,0,8,12,2,13,7,1,4,10,5],
   [10,2,8,4,7,6,1,5,15,11,9,14,3,12,13,0],
   [0,1,2,3,4,5,6,7,8,9,10,11,12,13,14,15],
   [14,10,4,8,9,15,13,6,1,12,0,2,11,7,5,3]]

/-- 64-bit rotate right (usad.js, rotr). -/
def rotr (x n : Nat) : Nat := ((x >>> n) ||| (x <<< (64 - n))) &&& mask64

/-- Read a word of the 16-word working vector, defaulting to 0. -/
def vget (v : List Nat) (i : Nat) : Nat := v.getD i 0

/-- Write a word of the 16-word working vector. -/
def vset (v : List Nat) (i x : Nat) : List Nat := v.set i x

/-- BLAKE2b mixing function (usad.js, G). -/
def Gmix (v : List Nat) (a b c d x y : Nat) : List Nat :=
  let v := vset v a ((vget v a + vget v b + x) &&& mask64)
  let v := vset v d (rotr ((vget v d) ^^^ (vget v a)) 32)
  let v := vset v c ((vget v c + vget v d) &&& mask64)
  let v := vset v b (rotr ((vget v b) ^^^ (vget v c)) 24)
  let v := vset v a ((vget v a + vget v b + y) &&& mask64)
  let v := vset v d (rotr ((vget v d) ^^^ (vget v a)) 16)
  let v := vset v c ((vget v c + vget v d) &&& mask64)
  let v := vset v b (rotr ((vget v b) ^^^ (vget v c)) 63)
  v

/-- Little-endian words of a (padded) 128-byte block (usad.js, blockToWords).
The source reads eight bytes little-endian per word via a DataView, falling
back to a byte loop on a short tail; with out-of-range bytes read as 0 both
paths compute the same sum, which is this formula. -/
def blockToWords (b : List Nat) : List Nat :=
  (List.range 16).map (fun i =>
    (List.range 8).foldl (fun w j => w ||| ((b.getD (i * 8 + j) 0) <<< (8 * j))) 0)

/-- One of the 12 compression rounds (the body of the round loop in blake2b). -/
def blakeRound (m : List Nat) (v : List Nat) (s : List Nat) : List Nat :=
  let g := fun v a b c d i j => Gmix v a b c d (vget m (vget s i)) (vget m (vget s j))
  let v := g v 0 4 8 12 0 1
  let v := g v 1 5 9 13 2 3
  let v := g v 2 6 10 14 4 5
  let v := g v 3 7 11 15 6 7
  let v := g v 0 5 10 15 8 9
  let v := g v 1 6 11 12 10 11
  let v := g v 2 7 8 13 12 13
  let v := g v 3 4 9 14 14 15
  v

/-- Running hash state of the blake2b block loop. -/
structure BlakeState where
  h : List Nat
  t0 : Nat
  t1 : Nat
deriving Repr, DecidableEq

/-- One iteration of the block loop in usad.js blake2b: pad the chunk to 128
bytes, advance the byte counter (with 64-bit carry), mix, and fold into h. -/
def blakeCompress (st : BlakeState) (chunk : List Nat) (isLast : Bool) : BlakeState :=
  let block := chunk ++ List.replicate (128 - chunk.length) 0
  let inc := chunk.length
  let t0 := (st.t0 + inc) &&& mask64
  let t1 := if t0 < inc then (st.t1 + 1) &&& mask64 else st.t1
  let m := blockToWords block
  let v := st.h ++ blakeIV
  let v := vset v 12 (((vget v 12) ^^^ t0) &&& mask64)
  let v := vset v 13 (((vget v 13) ^^^ t1) &&& mask64)
  let v := if isLast then vset v 14 (((vget v 14) ^^^ mask64) &&& mask64) else v
  let v := (List.range 12).foldl (fun v r => blakeRound m v (blakeSigma.getD r [])) v
  { h := (List.range 8).map (fun i => (vget st.h i) ^^^ (vget v i) ^^^ (vget v (i + 8))),
    t0 := t0, t1 := t1 }

/-- Structural helper for chunks128; the fuel is an upper bound on the
number of chunks still to cut, so with fuel at least the list length the
fallback never fires. -/
def chunks128Aux : Nat → List Nat → List (List Nat)
  | _, [] => []
  | 0, l => [l.take 128]
  | fuel + 1, l => l.take 128 :: chunks128Aux fuel (l.drop 128)

/-- Split the input into 128-byte chunks (the for-loop building blocks). -/
def chunks128 (l : List Nat) : List (List Nat) := chunks128Aux l.length l

/-- Keyed BLAKE2b with outlen output bytes (usad.js, blake2b). The source
throws for outlen outside (0, 64]; the sole call site uses outlen = 16, for
which the guard passes, so the guard is not modelled. -/
def blake2b (input : List Nat) (outlen : Nat) (key : List Nat) : List Nat :=
  let keylen := key.length
  let param := (0x01010000 ||| (keylen <<< 8) ||| outlen) % 2 ^ 32
  let h0 := vset blakeIV 0 ((vget blakeIV 0) ^^^ param)
  let blocks := (if keylen ≠ 0 then [key ++ List.replicate (128 - keylen) 0] else [])
      ++ chunks128 input
  let n := blocks.length
  let fin := blocks.enum.foldl
    (fun s bi => blakeCompress s bi.2 (bi.1 = n - 1)) { h := h0, t0 := 0, t1 := 0 : BlakeState }
  ((fin.h.take 8).map (fun w => (List.range 8).map fun j => (w >>> (8 * j)) % 256)).flatten.take outlen

/-- First eight digest bytes read little-endian (usad.js, u64leFromDigest16). -/
def u64leFromDigest16 (d : List Nat) : Nat :=
  (List.range 8).foldl (fun w j => w ||| ((d.getD j 0) <<< (8 * j))) 0

/-- Eight little-endian bytes of a 64-bit index (usad.js, to8LE). -/
def to8LE (i : Nat) : List Nat :=
  (List.range 8).map (fun j => (i >>> (8 * j)) % 256)

/-- Keyed hash of a feature index into a bucket (usad.js, blake2bIndex). -/
def blake2bIndex (i dim : Nat) (key : List Nat) : Nat :=
  (u64leFromDigest16 (blake2b (to8LE i) 16 key)) % dim

/-- UTF-8 bytes of the string USAD_salt_1 (usad.js, DEFAULT_SALT1). -/
def DEFAULT_SALT1 : List Nat := [85, 83, 65, 68, 95, 115, 97, 108, 116, 95, 49]

/-- UTF-8 bytes of the string USAD_salt_2 (usad.js, DEFAULT_SALT2). -/
def DEFAULT_SALT2 : List Nat := [85, 83, 65, 68, 95, 115, 97, 108, 116, 95, 50]

/-! ### Robust statistics and sorting (usad.js) -/

/-- Ascending sort of rational values, modelling Array.prototype.sort with the
comparator (x, y) => x - y. For a consistent comparator the JS sort returns
the unique ascending reordering, which insertionSort also returns. -/
def sortQ (l : List ℚ) : List ℚ := l.insertionSort (· ≤ ·)

/-- Median of an array (usad.js, median): sort ascending; middle element for
odd length, mean of the two central elements for even length. -/
def median (arr : List ℚ) : ℚ :=
  let a := sortQ arr
  let n := a.length
  if n % 2 = 1 then a.getD ((n - 1) / 2) 0
  else (1 / 2) * (a.getD (n / 2) 0 + a.getD (n / 2 - 1) 0)

/-- Robust z-scores via median and MAD (usad.js, robustZ). The float literals
1.4826 and 1e-12 are the exact rationals 14826/10000 and 1/10^12. -/
def robustZ (vec : List ℚ) (eps : ℚ := 1 / 10 ^ 12) : List ℚ :=
  let med := median vec
  let dev := vec.map (fun x => |x - med|)
  let mad := median dev
  let scale := (14826 / 10000 : ℚ) * (mad + eps)
  vec.map (fun x => (x - med) / scale)

/-- Math.sign restricted to rational inputs. -/
def signQ (x : ℚ) : ℚ := if 0 < x then 1 else if x < 0 then -1 else 0

/-! ### Sparse signature encoding (usad.js) -/

/-- The hashing block of the encoder configuration. -/
structure HashingConfig where
  dim : ℕ
  salt1 : List ℕ
  salt2 : List ℕ
  useDoubleHash : Bool
deriving Repr, DecidableEq

/-- A sparse signature. The JS object stores idx, val and norm; norm is
computed as Math.sqrt of the sum of squares, so the model stores the exact
rational sum of squares (normSq) and derives norm as a real number. -/
structure SparseSignature where
  idx : List ℕ
  val : List ℚ
  normSq : ℚ
deriving Repr, DecidableEq, Inhabited

/-- The stored norm: the square root of the stored sum of squares. -/
noncomputable def SparseSignature.norm (s : SparseSignature) : ℝ :=
  Real.sqrt (s.normSq : ℝ)

/-- Stable insertion of an index into a list sorted descending by key: the
new (later) index goes after every index of equal or larger key. -/
def insertIdxDesc (key : ℕ → ℚ) (x : ℕ) : List ℕ → List ℕ
  | [] => [x]
  | y :: ys => if key y < key x then x :: y :: ys else y :: insertIdxDesc key x ys

/-- Stable descending sort by key, modelling idxs.sort((i, j) => abs(elev j)
minus abs(elev i)); the JS sort is stable, so the stable insertion sort
returns the same list. -/
def sortIdxDesc (key : ℕ → ℚ) (l : List ℕ) : List ℕ :=
  l.foldl (fun acc x => insertIdxDesc key x acc) []

/-- Stable insertion of a position-value pair ascending by position. -/
def insertPairAsc (x : ℕ × ℚ) : List (ℕ × ℚ) → List (ℕ × ℚ)
  | [] => [x]
  | y :: ys => if x.1 < y.1 then x :: y :: ys else y :: insertPairAsc x ys

/-- Ascending sort of position-value pairs, modelling the final reorder
pos.map((_, i) => i).sort((a, b) => pos a - pos b) with aligned values. -/
def sortPairsAsc (l : List (ℕ × ℚ)) : List (ℕ × ℚ) :=
  l.foldl (fun acc x => insertPairAsc x acc) []

/-- The mutable loop state of encodeSparseSignature: the pos and val arrays
and the taken map (position to slot index, in insertion order). -/
structure EncState where
  pos : List ℕ
  val : List ℚ
  taken : List (ℕ × ℕ)
deriving Repr, DecidableEq

/-- The slot choice of the placement loop of encodeSparseSignature for a
retained feature with elevation v: try p1; on collision try p2 when double
hashing is on; otherwise resolve winner-take-more against the incumbent of
p1 (strictly larger magnitude wins, otherwise the incoming feature is
dropped, modelled by none). -/
def usadChoose (hashing : HashingConfig) (st : EncState) (orig : ℕ) (v : ℚ) :
    Option ℕ :=
  match st.taken.lookup (blake2bIndex orig hashing.dim hashing.salt1) with
  | none => some (blake2bIndex orig hashing.dim hashing.salt1)
  | some ie =>
    if hashing.useDoubleHash then
      if (st.taken.lookup (blake2bIndex orig hashing.dim hashing.salt2)).isNone then
        some (blake2bIndex orig hashing.dim hashing.salt2)
      else if |st.val.getD ie 0| < |v| then
        some (blake2bIndex orig hashing.dim hashing.salt1)
      else none
    else if |st.val.getD ie 0| < |v| then
      some (blake2bIndex orig hashing.dim hashing.salt1)
    else none

/-- The final placement of the loop body: overwrite the slot already mapped
to chosen, or push a fresh slot. -/
def placeChosen (st : EncState) (chosen : ℕ) (v : ℚ) : EncState :=
  match st.taken.lookup chosen with
  | some i => { st with pos := st.pos.set i chosen, val := st.val.set i v }
  | none => { pos := st.pos ++ [chosen], val := st.val ++ [v],
              taken := st.taken ++ [(chosen, st.pos.length)] }

/-- One iteration of the placement loop of encodeSparseSignature for the
retained feature index orig: skip zero elevations, choose a slot, place. -/
def usadStep (hashing : HashingConfig) (elev : List ℚ) (st : EncState) (orig : ℕ) :
    EncState :=
  let v := elev.getD orig 0
  if v = 0 then st else
  match usadChoose hashing st orig v with
  | none => st
  | some chosen => placeChosen st chosen v

/-- Sum of squares of a value list (the norm accumulation loop). -/
def sumSq (l : List ℚ) : ℚ := (l.map (fun v => v * v)).sum

/-- The elevation damping stage of encodeSparseSignature: with an active
clip quantile, shrink each robust z-score towards zero by the empirical
quantile of the absolute z-scores, else keep the z-scores. -/
def clipElev (z : List ℚ) (clipQuantile : ℚ) : List ℚ :=
  if 0 < clipQuantile ∧ clipQuantile < 1 then
    let sorted := sortQ (z.map (fun x => |x|))
    let qpos := (max 0 (min ((sorted.length : ℤ) - 1)
      (⌈(sorted.length : ℚ) * clipQuantile⌉ - 1))).toNat
    let q := sorted.getD qpos 0
    z.map (fun zi => signQ zi * max (|zi| - q) 0)
  else z

/-- The ranking stage of encodeSparseSignature: all feature indices sorted
by descending magnitude (stable), truncated to k when there are more. -/
def retainIdxs (k : ℕ) (elev : List ℚ) : List ℕ :=
  if k < elev.length then
    (sortIdxDesc (fun i => |elev.getD i 0|) (List.range elev.length)).take k
  else sortIdxDesc (fun i => |elev.getD i 0|) (List.range elev.length)

/-- The output stage of encodeSparseSignature: an empty placement gives the
empty signature, otherwise the position-value pairs sorted ascending by
position with the accumulated sum of squares. -/
def buildSignature (fin : EncState) : SparseSignature :=
  if fin.pos = [] then ⟨[], [], 0⟩ else
  let pairs := sortPairsAsc (fin.pos.zip fin.val)
  ⟨pairs.map Prod.fst, pairs.map Prod.snd, sumSq (pairs.map Prod.snd)⟩

/-- The sparse signature encoder (usad.js, encodeSparseSignature) on finite
(rational) inputs. Throws exactly the two configuration errors of the
source; k and dim are naturals, so the source guards k <= 0 and dim <= 0
become k = 0 and dim = 0. -/
def encodeSparseSignature (vec : List ℚ) (k : ℕ) (hashing : HashingConfig)
    (clipQuantile : ℚ) : Except String SparseSignature :=
  if k = 0 then .error "k must be positive" else
  if hashing.dim = 0 then .error "hashing.dim must be positive" else
  let elev := clipElev (robustZ vec) clipQuantile
  .ok (buildSignature ((retainIdxs k elev).foldl (usadStep hashing elev) ⟨[], [], []⟩))

/-! ### Sparse cosine, distance, conformal quantile (usad.js) -/

/-- The merge-join dot product of cosineSparse: advance two cursors over the
ascending position arrays, accumulating products at matching positions. -/
def mergeDot (ai : List ℕ) (av : List ℚ) (bi : List ℕ) (bv : List ℚ) : ℚ :=
  match ai, av, bi, bv with
  | pa :: ar, va :: avr, pb :: br, vb :: bvr =>
    if pa = pb then va * vb + mergeDot ar avr br bvr
    else if pa < pb then mergeDot ar avr (pb :: br) (vb :: bvr)
    else mergeDot (pa :: ar) (va :: avr) br bvr
  | _, _, _, _ => 0
termination_by ai.length + bi.length
decreasing_by all_goals simp <;> omega

/-- Sparse cosine similarity (usad.js, cosineSparse). -/
noncomputable def cosineSparse (a b : SparseSignature) (eps : ℚ := 1 / 10 ^ 12) : ℝ :=
  let dot := mergeDot a.idx a.val b.idx b.val
  let denom := (a.norm + (eps : ℝ)) * (b.norm + (eps : ℝ))
  if 0 < denom then (dot : ℝ) / denom else 0

/-- Sparse cosine distance (usad.js, distanceSparse). -/
noncomputable def distanceSparse (a b : SparseSignature) : ℝ := 1 - cosineSparse a b

/-- Conformal quantile of calibration scores (usad.js, conformalQuantile). -/
noncomputable def conformalQuantile (scores : List ℝ) (alpha : ℚ) : Except String ℝ :=
  if ¬(0 < alpha ∧ alpha < 1) then .error "alpha must be in (0,1)" else
  let n := scores.length
  if n = 0 then .error "need calibration scores" else
  let k := (max 0 (min ((n : ℤ) - 1) (⌈((n : ℚ) + 1) * (1 - alpha)⌉ - 1))).toNat
  let arr := scores.insertionSort (· ≤ ·)
  .ok (arr.getD k 0)

/-! ### The conformal detector (usad.js, USADetector) -/

/-- The mutable state of a USADetector instance. thr is undefined until
calibration, hence an Option. -/
structure USADetector where
  hashing : HashingConfig
  k : ℕ
  alpha : ℚ
  kNN : ℕ
  clip : ℚ
  calSigs : List SparseSignature
  calScores : List ℝ
  thr : Option ℝ

/-- USADetector.encode: delegate to the sparse encoder with the instance
configuration. -/
def USADetector.encode (det : USADetector) (x : List ℚ) :
    Except String SparseSignature :=
  encodeSparseSignature x det.k det.hashing det.clip

/-- The leave-one-out nonconformity score of pool member i inside calibrate:
mean of the min(kNN, n - 1) smallest distances to the other pool members,
and 0 when there are no other members. -/
noncomputable def looScore (kNN : ℕ) (sigs : List SparseSignature) (i : ℕ) : ℝ :=
  let dists := ((List.range sigs.length).filter (fun j => j ≠ i)).map
      (fun j => distanceSparse (sigs.getD i default) (sigs.getD j default))
  if dists = [] then 0 else
  let sorted := dists.insertionSort (· ≤ ·)
  let kEff := min kNN dists.length
  (sorted.take kEff).sum / (kEff : ℝ)

/-- USADetector.calibrate: encode every calibration vector, fail on an empty
collection, score every pool member leave-one-out, store scores and the
conformal threshold, and return the threshold. The JS method mutates this
and returns the threshold; the model returns the threshold together with
the updated detector. -/
noncomputable def USADetector.calibrate (det : USADetector)
    (calibration : List (List ℚ)) : Except String (ℝ × USADetector) := do
  let sigs ← calibration.mapM det.encode
  let n := sigs.length
  if n = 0 then throw "need calibration vectors"
  let calScores := (List.range n).map (looScore det.kNN sigs)
  let t ← conformalQuantile calScores det.alpha
  return (t, { det with calSigs := sigs, calScores := calScores, thr := some t })

/-- USADetector.nonconformity: mean distance of the encoded query to its
min(kNN, n) nearest pool members; fails when uncalibrated. -/
noncomputable def USADetector.nonconformity (det : USADetector) (x : List ℚ) :
    Except String ℝ := do
  if det.calSigs.length = 0 then throw "not calibrated"
  let sx ← det.encode x
  let dists := (det.calSigs.map (fun s => distanceSparse sx s)).insertionSort (· ≤ ·)
  let kEff := min det.kNN dists.length
  return (dists.take kEff).sum / (kEff : ℝ)

/-- USADetector.threshold: the stored threshold, failing when unset. -/
def USADetector.threshold (det : USADetector) : Except String ℝ :=
  match det.thr with
  | none => .error "threshold not set"
  | some t => .ok t

/-- USADetector.predict: isAnomaly is score strictly above threshold. -/
noncomputable def USADetector.predict (det : USADetector) (x : List ℚ) :
    Except String (Bool × ℝ × ℝ) := do
  let s ← det.nonconformity x
  let t ← det.threshold
  return (decide (t < s), s, t)

/-- USADetector.updateIfNormal: absorb x when predicted normal, with an
approximate score computed against the pool before insertion (the source
pushes sx and then scores over slice(0,-1), which is the original pool),
then recompute the threshold. -/
noncomputable def USADetector.updateIfNormal (det : USADetector) (x : List ℚ) :
    Except String (Bool × USADetector) := do
  let r ← det.predict x
  if r.1 then return (false, det)
  let sx ← det.encode x
  let dists := (det.calSigs.map (fun s => distanceSparse sx s)).insertionSort (· ≤ ·)
  let kEff := min det.kNN dists.length
  let newScore : ℝ := if dists.length ≠ 0 then (dists.take kEff).sum / (kEff : ℝ) else 0
  let calSigs := det.calSigs ++ [sx]
  let calScores := det.calScores ++ [newScore]
  let t ← conformalQuantile calScores det.alpha
  return (true, { det with calSigs := calSigs, calScores := calScores, thr := some t })

/-! ### KK kernel (kk-kernel.js) -/

/-- A positions/elevations signature as used by kk-kernel.js and
rh-sparse.js. -/
structure KSignature where
  positions : List ℕ
  elevations : List ℚ
  dimension : ℕ
deriving Repr, DecidableEq, Inhabited

/-- l2 from kk-kernel.js: Math.sqrt of the sum of squares. -/
noncomputable def l2 (arr : List ℚ) : ℝ := Real.sqrt ((sumSq arr : ℚ) : ℝ)

/-- Plain-object write d[p] = v: overwrite the value of an existing key in
place, otherwise append the new key (insertion order preserved). -/
def assocSet (d : List (ℕ × ℚ)) (p : ℕ) (v : ℚ) : List (ℕ × ℚ) :=
  if d.any (fun q => q.1 = p) then d.map (fun q => if q.1 = p then (p, v) else q)
  else d ++ [(p, v)]

/-- dict from kk-kernel.js: the aligned positions and elevations of a
signature as a plain object. -/
def kdict (sig : KSignature) : List (ℕ × ℚ) :=
  (sig.positions.zip sig.elevations).foldl (fun d pv => assocSet d pv.1 pv.2) []

/-- Object lookup, undefined becoming none. -/
def dictGet (d : List (ℕ × ℚ)) (p : ℕ) : Option ℚ := d.lookup p

/-- baseCosine from kk-kernel.js: dot over the query positions present in X,
returned as 0 when the dot is 0, else dot / (l2 Q * l2 X + eps). -/
noncomputable def baseCosine (Q X : KSignature) (eps : ℚ := 1 / 10 ^ 12) : ℝ :=
  let Qd := kdict Q
  let Xd := kdict X
  let dot : ℚ := (Q.positions.map (fun p =>
    match dictGet Xd p with
    | some xv => (dictGet Qd p).getD 0 * xv
    | none => 0)).sum
  if dot = 0 then 0 else (dot : ℝ) / (l2 Q.elevations * l2 X.elevations + (eps : ℝ))

/-- Stable descending insertion of a (position, elevation) pair by
elevation; the new (later) pair goes after equal elevations. -/
def insertPairDescElev (x : ℕ × ℚ) : List (ℕ × ℚ) → List (ℕ × ℚ)
  | [] => [x]
  | y :: ys => if y.2 < x.2 then x :: y :: ys else y :: insertPairDescElev x ys

/-- Stable descending sort of pairs by elevation, modelling
sort((a, b) => b.e - a.e). -/
def sortPairsDescElev (l : List (ℕ × ℚ)) : List (ℕ × ℚ) :=
  l.foldl (fun acc x => insertPairDescElev x acc) []

/-- anomalySet from kk-kernel.js: the positions of the top-M pairs by
elevation (stable sort keeps ties in position order); the JS Set is modelled
as the first-occurrence dedup of the resulting position list. -/
def anomalySet (Q : KSignature) (M : ℕ) : List ℕ :=
  let pairs := Q.positions.zip Q.elevations
  let sorted := sortPairsDescElev pairs
  ((sorted.take (min M pairs.length)).map (fun x => x.1)).dedup

/-- anomalyOverlapFrac from kk-kernel.js: hits of A inside the positions of X
over the size of A, 0 for empty A. -/
def anomalyOverlapFrac (Q X : KSignature) (M : ℕ) : ℚ :=
  let A := anomalySet Q M
  if A.length = 0 then 0 else
  ((A.filter (fun p => X.positions.contains p)).length : ℚ) / (A.length : ℚ)

/-- anomalyAgreementCosine from kk-kernel.js: cosine over the coordinates of
A with absent coordinates read as 0, regularised with eps, and 0 whenever
the restricted dot is 0 or A is empty. -/
noncomputable def anomalyAgreementCosine (Q X : KSignature) (M : ℕ)
    (eps : ℚ := 1 / 10 ^ 12) : ℝ :=
  let A := anomalySet Q M
  if A.length = 0 then 0 else
  let Qd := kdict Q
  let Xd := kdict X
  let dot : ℚ := (A.map (fun p => ((dictGet Qd p).getD 0) * ((dictGet Xd p).getD 0))).sum
  let nQa2 : ℚ := (A.map (fun p => ((dictGet Qd p).getD 0) * ((dictGet Qd p).getD 0))).sum
  let nXa2 : ℚ := (A.map (fun p => ((dictGet Xd p).getD 0) * ((dictGet Xd p).getD 0))).sum
  if dot = 0 then 0 else
  (dot : ℝ) / (Real.sqrt (nQa2 : ℝ) * Real.sqrt (nXa2 : ℝ) + (eps : ℝ))

/-- The record returned by kkScore. -/
structure KKScore where
  base : ℝ
  a : ℚ
  b : ℝ
  mult : ℝ
  total : ℝ

/-- kkScore from kk-kernel.js: total = base * (1 + beta a + gamma b). -/
noncomputable def kkScore (Q X : KSignature) (beta gamma : ℚ) (M : ℕ)
    (eps : ℚ := 1 / 10 ^ 12) : KKScore :=
  let base := baseCosine Q X eps
  let a := anomalyOverlapFrac Q X M
  let b := anomalyAgreementCosine Q X M eps
  let mult : ℝ := 1 + (beta : ℝ) * (a : ℚ) + (gamma : ℝ) * b
  { base := base, a := a, b := b, mult := mult, total := base * mult }

/-! ### Multi-scale anomaly tracker (rh-sparse.js) -/

/-- A sparse position-to-value dictionary. -/
abbrev QDict := List (ℕ × ℚ)

/-- MultiScaleAnomaly.to_dict: a signature as a position-to-elevation
object (later duplicate positions overwrite earlier ones). -/
def msToDict (sig : KSignature) : QDict :=
  (sig.positions.zip sig.elevations).foldl (fun d pv => assocSet d pv.1 pv.2) []

/-- One per-scale history ring. -/
structure HistoryRing where
  buf : List QDict
  cap : ℕ
deriving Repr, DecidableEq

/-- The tracker state. The JS object this.hist is keyed by the numeric
scale, so duplicate scales collapse to one entry and Object.entries
iterates integer keys ascending: hist keeps the deduplicated scales in
ascending order. -/
structure MultiScaleAnomaly where
  scales : List ℕ
  knn_k : ℕ
  hist : List (ℕ × HistoryRing)
deriving Repr, DecidableEq

/-- Ascending sort of naturals (integer object keys iterate ascending). -/
def sortNatAsc (l : List ℕ) : List ℕ := l.insertionSort (· ≤ ·)

/-- The MultiScaleAnomaly constructor: an empty ring of capacity s per
scale s. -/
def MultiScaleAnomaly.init (scales : List ℕ) (knn_k : ℕ) : MultiScaleAnomaly :=
  ⟨scales, knn_k, (sortNatAsc scales.dedup).map (fun s => (s, ⟨[], s⟩))⟩

/-- MultiScaleAnomaly._sparse_cosine: 0 when either dictionary is empty or
has zero norm, otherwise the exact cosine over the key union (this cosine,
unlike cosineSparse of usad.js, has no eps in the denominator). -/
noncomputable def msSparseCosine (a b : QDict) : ℝ :=
  if a = [] ∨ b = [] then 0 else
  let keys := (a.map (fun x => x.1) ++ b.map (fun x => x.1)).dedup
  let dot : ℚ := (keys.map (fun p => ((a.lookup p).getD 0) * ((b.lookup p).getD 0))).sum
  let na := Real.sqrt ((sumSq (a.map (fun x => x.2)) : ℚ) : ℝ)
  let nb := Real.sqrt ((sumSq (b.map (fun x => x.2)) : ℚ) : ℝ)
  if na = 0 ∨ nb = 0 then 0 else (dot : ℝ) / (na * nb)

/-- MultiScaleAnomaly._topk_avg: mean of the max(1, min(k, n)) largest
cosine similarities between q and the ring entries; 0 for an empty ring. -/
noncomputable def msTopkAvg (ring : HistoryRing) (q : QDict) (k : ℕ) : ℝ :=
  if ring.buf = [] then 0 else
  let sims := (ring.buf.map (fun s => msSparseCosine q s)).insertionSort (fun a b => b ≤ a)
  let kEff := max 1 (min k sims.length)
  (sims.take kEff).sum / (kEff : ℝ)

/-- The ring push of update_and_score: append, then shift off the oldest
entry if the capacity is exceeded. -/
def pushRing (ring : HistoryRing) (q : QDict) : HistoryRing :=
  ⟨if ring.cap < (ring.buf ++ [q]).length then (ring.buf ++ [q]).tail
    else ring.buf ++ [q], ring.cap⟩

/-- MultiScaleAnomaly.update_and_score: score every scale against its
current ring, then push the new dictionary onto every ring, then combine
the per-scale novelties by arithmetic mean. -/
noncomputable def MultiScaleAnomaly.update_and_score (ms : MultiScaleAnomaly)
    (sig : KSignature) : (ℝ × List (ℕ × ℝ)) × MultiScaleAnomaly :=
  let q := msToDict sig
  let per := ms.hist.map (fun sr => (sr.1, 1 - msTopkAvg sr.2 q ms.knn_k))
  let hist := ms.hist.map (fun sr => (sr.1, pushRing sr.2 q))
  let combined : ℝ :=
    if per.length ≠ 0 then (per.map (fun x => x.2)).sum / (per.length : ℝ) else 0
  ((combined, per), { ms with hist := hist })

/-! ### Extended number model (finite rationals, infinities, NaN)

A second model of the usad.js encoder pipeline over JavaScript double
values including the non-finite ones, used to settle the claims about
NaN/Infinity inputs. Arithmetic follows IEEE-754 double semantics with a
single zero; sorts model the ECMAScript comparator contract and agree with
the engine sort whenever the comparator never returns NaN (the inputs used
in theorems below keep every comparator call NaN-free). -/

/-- A JavaScript number: an exact finite rational, an infinity, or NaN. -/
inductive JNum where
  | fin (q : ℚ)
  | pinf
  | ninf
  | nan
deriving Repr, DecidableEq, Inhabited

namespace JNum

/-- IEEE addition. -/
def add : JNum → JNum → JNum
  | nan, _ => nan
  | _, nan => nan
  | pinf, ninf => nan
  | ninf, pinf => nan
  | pinf, _ => pinf
  | _, pinf => pinf
  | ninf, _ => ninf
  | _, ninf => ninf
  | fin a, fin b => fin (a + b)

/-- IEEE negation. -/
def neg : JNum → JNum
  | nan => nan
  | pinf => ninf
  | ninf => pinf
  | fin a => fin (-a)

/-- IEEE subtraction. -/
def sub (a b : JNum) : JNum := add a (neg b)

/-- IEEE multiplication. -/
def mul : JNum → JNum → JNum
  | nan, _ => nan
  | _, nan => nan
  | pinf, pinf => pinf
  | pinf, ninf => ninf
  | ninf, pinf => ninf
  | ninf, ninf => pinf
  | pinf, fin b => if b = 0 then nan else if 0 < b then pinf else ninf
  | fin a, pinf => if a = 0 then nan else if 0 < a then pinf else ninf
  | ninf, fin b => if b = 0 then nan else if 0 < b then ninf else pinf
  | fin a, ninf => if a = 0 then nan else if 0 < a then ninf else pinf
  | fin a, fin b => fin (a * b)

/-- IEEE division (with a single zero, division by zero gives the sign of
the numerator, 0/0 gives NaN). -/
def div : JNum → JNum → JNum
  | nan, _ => nan
  | _, nan => nan
  | pinf, pinf => nan
  | pinf, ninf => nan
  | ninf, pinf => nan
  | ninf, ninf => nan
  | pinf, fin b => if b < 0 then ninf else pinf
  | ninf, fin b => if b < 0 then pinf else ninf
  | fin _, pinf => fin 0
  | fin _, ninf => fin 0
  | fin a, fin b =>
    if b = 0 then (if a = 0 then nan else if 0 < a then pinf else ninf)
    else fin (a / b)

/-- Math.abs. -/
def abs : JNum → JNum
  | nan => nan
  | pinf => pinf
  | ninf => pinf
  | fin a => fin |a|

/-- Math.sign. -/
def sign : JNum → JNum
  | nan => nan
  | pinf => fin 1
  | ninf => fin (-1)
  | fin a => fin (signQ a)

/-- The strict less-than comparison, false whenever NaN is involved. -/
def ltB : JNum → JNum → Bool
  | nan, _ => false
  | _, nan => false
  | fin a, fin b => a < b
  | ninf, ninf => false
  | ninf, _ => true
  | _, ninf => false
  | pinf, _ => false
  | fin _, pinf => true

/-- Math.max of two values: NaN if either is NaN. -/
def maxJ (a b : JNum) : JNum :=
  match a, b with
  | nan, _ => nan
  | _, nan => nan
  | _, _ => if ltB a b then b else a

/-- Is the comparator result negative (NaN counting as not negative, as in
the ECMAScript SortCompare contract)? -/
def isNeg : JNum → Bool
  | ninf => true
  | fin a => a < 0
  | _ => false

/-- Strict equality with the number literal 0 (v === 0). -/
def isZero : JNum → Bool
  | fin a => a = 0
  | _ => false

end JNum

/-- Stable insertion for the ascending value sort with comparator
(x, y) => x - y on extended numbers. -/
def insertAscJ (x : JNum) : List JNum → List JNum
  | [] => [x]
  | y :: ys => if JNum.isNeg (JNum.sub x y) then x :: y :: ys else y :: insertAscJ x ys

/-- Ascending sort of extended numbers by the subtraction comparator. -/
def sortAscJ (l : List JNum) : List JNum :=
  l.foldl (fun acc x => insertAscJ x acc) []

/-- Median over extended numbers (usad.js, median); out-of-range reads are
undefined in JS and make the arithmetic NaN, modelled by the nan default. -/
def medianN (arr : List JNum) : JNum :=
  let a := sortAscJ arr
  let n := a.length
  if n % 2 = 1 then a.getD ((n - 1) / 2) .nan
  else if n = 0 then .nan
  else JNum.mul (.fin (1 / 2)) (JNum.add (a.getD (n / 2) .nan) (a.getD (n / 2 - 1) .nan))

/-- robustZ over extended numbers (usad.js, robustZ). -/
def robustZN (vec : List JNum) (eps : ℚ := 1 / 10 ^ 12) : List JNum :=
  let med := medianN vec
  let dev := vec.map (fun x => JNum.abs (JNum.sub x med))
  let mad := medianN dev
  let scale := JNum.mul (.fin (14826 / 10000)) (JNum.add mad (.fin eps))
  vec.map (fun x => JNum.div (JNum.sub x med) scale)

/-- Stable insertion for the descending index sort with comparator
(i, j) => abs(elev j) - abs(elev i) on extended numbers. -/
def insertIdxDescN (key : ℕ → JNum) (x : ℕ) : List ℕ → List ℕ
  | [] => [x]
  | y :: ys =>
    if JNum.isNeg (JNum.sub (key y) (key x)) then x :: y :: ys
    else y :: insertIdxDescN key x ys

/-- Stable descending index sort on extended numbers. -/
def sortIdxDescN (key : ℕ → JNum) (l : List ℕ) : List ℕ :=
  l.foldl (fun acc x => insertIdxDescN key x acc) []

/-- Stable insertion of a position-value pair ascending by position. -/
def insertPairAscN (x : ℕ × JNum) : List (ℕ × JNum) → List (ℕ × JNum)
  | [] => [x]
  | y :: ys => if x.1 < y.1 then x :: y :: ys else y :: insertPairAscN x ys

/-- Ascending sort of position-value pairs by position. -/
def sortPairsAscN (l : List (ℕ × JNum)) : List (ℕ × JNum) :=
  l.foldl (fun acc x => insertPairAscN x acc) []

/-- A sparse signature over extended numbers; normSq is the accumulated sum
of squares before the final Math.sqrt. -/
structure SparseSignatureN where
  idx : List ℕ
  val : List JNum
  normSq : JNum
deriving Repr, DecidableEq, Inhabited

/-- The placement-loop state over extended numbers. -/
structure EncStateN where
  pos : List ℕ
  val : List JNum
  taken : List (ℕ × ℕ)
deriving Repr, DecidableEq

/-- One placement-loop iteration over extended numbers (same control flow as
usadStep; the magnitude comparison abs v > abs incumbent is false whenever
NaN is involved). -/
def usadStepN (hashing : HashingConfig) (elev : List JNum) (st : EncStateN)
    (orig : ℕ) : EncStateN :=
  let v := elev.getD orig .nan
  if JNum.isZero v then st else
  let p1 := blake2bIndex orig hashing.dim hashing.salt1
  let chosen? : Option ℕ :=
    match st.taken.lookup p1 with
    | none => some p1
    | some ie =>
      if hashing.useDoubleHash then
        let p2 := blake2bIndex orig hashing.dim hashing.salt2
        if (st.taken.lookup p2).isNone then some p2
        else if JNum.ltB (JNum.abs (st.val.getD ie .nan)) (JNum.abs v) then some p1
        else none
      else if JNum.ltB (JNum.abs (st.val.getD ie .nan)) (JNum.abs v) then some p1
      else none
  match chosen? with
  | none => st
  | some chosen =>
    match st.taken.lookup chosen with
    | some i => { st with pos := st.pos.set i chosen, val := st.val.set i v }
    | none => { pos := st.pos ++ [chosen], val := st.val ++ [v],
                taken := st.taken ++ [(chosen, st.pos.length)] }

/-- Sum of squares accumulation over extended numbers. -/
def sumSqN (l : List JNum) : JNum := (l.map (fun v => JNum.mul v v)).foldl JNum.add (.fin 0)

/-- The elevation damping stage over extended numbers. -/
def clipElevN (z : List JNum) (clipQuantile : ℚ) : List JNum :=
  if 0 < clipQuantile ∧ clipQuantile < 1 then
    let sorted := sortAscJ (z.map JNum.abs)
    let qpos := (max 0 (min ((sorted.length : ℤ) - 1)
      (⌈(sorted.length : ℚ) * clipQuantile⌉ - 1))).toNat
    let q := sorted.getD qpos .nan
    z.map (fun zi => JNum.mul (JNum.sign zi) (JNum.maxJ (JNum.sub (JNum.abs zi) q) (.fin 0)))
  else z

/-- The ranking stage over extended numbers. -/
def retainIdxsN (k : ℕ) (elev : List JNum) : List ℕ :=
  if k < elev.length then
    (sortIdxDescN (fun i => JNum.abs (elev.getD i .nan)) (List.range elev.length)).take k
  else sortIdxDescN (fun i => JNum.abs (elev.getD i .nan)) (List.range elev.length)

/-- The output stage over extended numbers. -/
def buildSignatureN (fin : EncStateN) : SparseSignatureN :=
  if fin.pos = [] then ⟨[], [], .fin 0⟩ else
  let pairs := sortPairsAscN (fin.pos.zip fin.val)
  ⟨pairs.map Prod.fst, pairs.map Prod.snd, sumSqN (pairs.map Prod.snd)⟩

/-- The sparse encoder over extended numbers (usad.js,
encodeSparseSignature), the same pipeline as encodeSparseSignature with
IEEE semantics for the non-finite values. -/
def encodeSparseSignatureN (vec : List JNum) (k : ℕ) (hashing : HashingConfig)
    (clipQuantile : ℚ) : Except String SparseSignatureN :=
  if k = 0 then .error "k must be positive" else
  if hashing.dim = 0 then .error "hashing.dim must be positive" else
  let elev := clipElevN (robustZN vec) clipQuantile
  .ok (buildSignatureN ((retainIdxsN k elev).foldl (usadStepN hashing elev) ⟨[], [], []⟩))

/-- The sanitisation the specification describes: every NaN or infinite
entry replaced by 0 (this is what rh-sparse.js does in its own encoder, and
what the claim asserts encodeSparseSignature does). -/
def sanitizeNum : JNum → JNum
  | .fin q => .fin q
  | _ => .fin 0

/-! ### Claim C1: the conformal quantile formula -/

/-- The rank of the specification: clamp(ceil((n + 1)(1 - alpha)) - 1, 0,
n - 1) as a natural number (under 0 < alpha < 1 the ceiling is at least 1,
so the lower clamp is the toNat coercion). -/
def rankSpec (n : ℕ) (alpha : ℚ) : ℕ :=
  min (n - 1) (⌈((n : ℚ) + 1) * (1 - alpha)⌉ - 1).toNat

/-- Helper: a constant list is sorted. -/
theorem sorted_le_replicate (n : ℕ) (x : ℝ) :
    (List.replicate n x).Sorted (· ≤ ·) := by
  induction n with
  | zero => simp
  | succ m ih =>
    simp only [List.replicate_succ, List.sorted_cons]
    exact ⟨fun b hb => le_of_eq (List.eq_of_mem_replicate hb).symm, ih⟩

/-- C1. For every nonempty score list and alpha in (0, 1), conformalQuantile
returns the entry of the ascending sort of the scores at 0-based index
clamp(ceil((n + 1)(1 - alpha)) - 1, 0, n - 1); in particular for n = 99 and
alpha = 1/10 the index is 89, the 90th smallest score (0-indexed rank 89).
The ascending sort is characterised as any sorted permutation of the
scores. -/
theorem conformalQuantile_rank_spec (scores : List ℝ) (alpha : ℚ)
    (sorted : List ℝ) (hperm : scores.Perm sorted)
    (hsort : sorted.Sorted (· ≤ ·)) (hne : scores ≠ [])
    (h0 : 0 < alpha) (h1 : alpha < 1) :
    conformalQuantile scores alpha
      = .ok (sorted.getD (rankSpec scores.length alpha) 0) ∧
    (scores.length = 99 → alpha = 1 / 10 →
      conformalQuantile scores alpha = .ok (sorted.getD 89 0)) := by
  have harr : scores.insertionSort (· ≤ ·) = sorted :=
    List.eq_of_perm_of_sorted ((List.perm_insertionSort _ _).trans hperm)
      (List.sorted_insertionSort _ _) hsort
  have hn : scores.length ≠ 0 := fun h => hne (List.length_eq_zero.mp h)
  have hceil : (1 : ℤ) ≤ ⌈((scores.length : ℚ) + 1) * (1 - alpha)⌉ := by
    have hpos : (0 : ℚ) < ((scores.length : ℚ) + 1) * (1 - alpha) := by
      apply mul_pos
      · positivity
      · linarith
    exact Int.ceil_pos.mpr hpos
  have hkey : (max 0 (min ((scores.length : ℤ) - 1)
      (⌈((scores.length : ℚ) + 1) * (1 - alpha)⌉ - 1))).toNat
      = rankSpec scores.length alpha := by
    unfold rankSpec
    omega
  have hcond : ¬¬(0 < alpha ∧ alpha < 1) := not_not_intro ⟨h0, h1⟩
  have hmain : conformalQuantile scores alpha
      = .ok (sorted.getD (rankSpec scores.length alpha) 0) := by
    simp only [conformalQuantile, if_neg hcond, if_neg hn, harr, hkey]
  refine ⟨hmain, fun h99 hA => ?_⟩
  rw [hmain, h99, hA]
  norm_num [show rankSpec 99 (1 / 10) = 89 from by decide]

/-- Witness for C1 at a concrete input: 99 scores, alpha = 1/10. -/
theorem conformalQuantile_rank_spec_witness :
    conformalQuantile (List.replicate 99 (0 : ℝ)) (1 / 10)
      = .ok ((List.replicate 99 (0 : ℝ)).getD 89 0) :=
  (conformalQuantile_rank_spec (List.replicate 99 (0 : ℝ)) (1 / 10)
    (List.replicate 99 (0 : ℝ)) (List.Perm.refl _) (sorted_le_replicate 99 0)
    (by simp) (by norm_num) (by norm_num)).2 (by simp) rfl

/-! ### Encoder loop invariants (shared infrastructure for several claims) -/

/-- The taken map built from the positions list starting at slot index i. -/
def takenOfFrom (i : ℕ) : List ℕ → List (ℕ × ℕ)
  | [] => []
  | p :: rest => (p, i) :: takenOfFrom (i + 1) rest

theorem takenOfFrom_append (i : ℕ) (pos : List ℕ) (x : ℕ) :
    takenOfFrom i (pos ++ [x]) = takenOfFrom i pos ++ [(x, i + pos.length)] := by
  induction pos generalizing i with
  | nil => simp [takenOfFrom]
  | cons p rest ih =>
    show (p, i) :: takenOfFrom (i + 1) (rest ++ [x])
        = ((p, i) :: takenOfFrom (i + 1) rest) ++ [(x, i + (rest.length + 1))]
    rw [ih]
    have : i + 1 + rest.length = i + (rest.length + 1) := by omega
    rw [this, List.cons_append]

theorem lookup_takenOfFrom_none (i : ℕ) (pos : List ℕ) (p : ℕ) :
    (takenOfFrom i pos).lookup p = none ↔ p ∉ pos := by
  induction pos generalizing i with
  | nil => simp [takenOfFrom]
  | cons q rest ih =>
    by_cases h : p = q
    · subst h
      simp [takenOfFrom, List.lookup]
    · simp [takenOfFrom, List.lookup, beq_false_of_ne h, ih, h]

theorem lookup_takenOfFrom_some (i : ℕ) (pos : List ℕ) (p j : ℕ)
    (h : (takenOfFrom i pos).lookup p = some j) :
    i ≤ j ∧ j - i < pos.length ∧ pos[j - i]? = some p := by
  induction pos generalizing i with
  | nil => simp [takenOfFrom, List.lookup] at h
  | cons q rest ih =>
    by_cases hpq : p = q
    · subst hpq
      simp [takenOfFrom, List.lookup] at h
      subst h
      simp
    · simp only [takenOfFrom, List.lookup, beq_false_of_ne hpq] at h
      obtain ⟨h1, h2, h3⟩ := ih (i + 1) h
      refine ⟨by omega, by simp; omega, ?_⟩
      have : j - i = (j - (i + 1)) + 1 := by omega
      rw [this]
      simpa using h3

/-- Setting an entry to the value it already holds leaves the list
unchanged. -/
theorem set_self_of_getElem? (l : List ℕ) (i : ℕ) (a : ℕ) (h : l[i]? = some a) :
    l.set i a = l := by
  induction l generalizing i with
  | nil => simp at h
  | cons x xs ih =>
    cases i with
    | zero => simp at h; simp [h]
    | succ n => simp at h; simp [List.set, ih n h]

theorem insertPairAsc_perm (x : ℕ × ℚ) (l : List (ℕ × ℚ)) :
    (insertPairAsc x l).Perm (x :: l) := by
  induction l with
  | nil => exact List.Perm.refl _
  | cons y ys ih =>
    rw [insertPairAsc]
    split
    · exact List.Perm.refl _
    · exact (ih.cons y).trans (List.Perm.swap x y ys)

theorem sortPairsAsc_foldl_perm (l : List (ℕ × ℚ)) :
    ∀ acc : List (ℕ × ℚ),
      (l.foldl (fun acc x => insertPairAsc x acc) acc).Perm (acc ++ l) := by
  induction l with
  | nil => intro acc; simp
  | cons x xs ih =>
    intro acc
    have h1 := ih (insertPairAsc x acc)
    have h2 : (insertPairAsc x acc ++ xs).Perm ((x :: acc) ++ xs) :=
      List.Perm.append_right xs (insertPairAsc_perm x acc)
    have h3 : ((x :: acc) ++ xs).Perm (acc ++ x :: xs) := List.perm_middle.symm
    exact (h1.trans h2).trans h3

theorem sortPairsAsc_perm (l : List (ℕ × ℚ)) : (sortPairsAsc l).Perm l :=
  (sortPairsAsc_foldl_perm l []).trans (by simp)

/-- Key order of the pair sort: ascending positions. -/
def pairLe (a b : ℕ × ℚ) : Prop := a.1 ≤ b.1

theorem insertPairAsc_pairwise (x : ℕ × ℚ) (l : List (ℕ × ℚ))
    (h : l.Pairwise pairLe) : (insertPairAsc x l).Pairwise pairLe := by
  induction l with
  | nil => simp [insertPairAsc, List.Pairwise]
  | cons y ys ih =>
    rw [insertPairAsc]
    rcases List.pairwise_cons.mp h with ⟨hy, hys⟩
    split
    · rename_i hlt
      refine List.pairwise_cons.mpr ⟨?_, h⟩
      intro z hz
      rcases List.mem_cons.mp hz with rfl | hz'
      · exact le_of_lt hlt
      · exact le_trans (le_of_lt hlt) (hy z hz')
    · rename_i hnlt
      refine List.pairwise_cons.mpr ⟨?_, ih hys⟩
      intro z hz
      have hz2 := (insertPairAsc_perm x ys).mem_iff.mp hz
      rcases List.mem_cons.mp hz2 with rfl | hz'
      · exact Nat.le_of_not_lt hnlt
      · exact hy z hz'

theorem sortPairsAsc_pairwise (l : List (ℕ × ℚ)) :
    (sortPairsAsc l).Pairwise pairLe := by
  suffices h : ∀ acc : List (ℕ × ℚ), acc.Pairwise pairLe →
      (l.foldl (fun acc x => insertPairAsc x acc) acc).Pairwise pairLe from
    h [] (by simp)
  induction l with
  | nil => intro acc hacc; simpa using hacc
  | cons x xs ih =>
    intro acc hacc
    exact ih _ (insertPairAsc_pairwise x acc hacc)

/-- The invariant maintained by the placement loop: unique in-range
positions, aligned value list with nonzero entries, and a taken map that is
exactly the slot index of each position. -/
def EncInv (dim : ℕ) (st : EncState) : Prop :=
  st.pos.Nodup ∧ st.val.length = st.pos.length ∧ (∀ p ∈ st.pos, p < dim) ∧
  (∀ v ∈ st.val, v ≠ 0) ∧ st.taken = takenOfFrom 0 st.pos

theorem usadChoose_mem (hashing : HashingConfig) (st : EncState) (orig : ℕ)
    (v : ℚ) (c : ℕ) (h : usadChoose hashing st orig v = some c) :
    c = blake2bIndex orig hashing.dim hashing.salt1 ∨
    c = blake2bIndex orig hashing.dim hashing.salt2 := by
  unfold usadChoose at h
  split at h
  · exact Or.inl (Option.some.inj h).symm
  · split at h
    · split at h
      · exact Or.inr (Option.some.inj h).symm
      · split at h
        · exact Or.inl (Option.some.inj h).symm
        · exact absurd h (by simp)
    · split at h
      · exact Or.inl (Option.some.inj h).symm
      · exact absurd h (by simp)

theorem placeChosen_inv (dim : ℕ) (st : EncState) (chosen : ℕ) (v : ℚ)
    (hch : chosen < dim) (hv : v ≠ 0) (hinv : EncInv dim st) :
    EncInv dim (placeChosen st chosen v) ∧
      (placeChosen st chosen v).pos.length ≤ st.pos.length + 1 := by
  obtain ⟨hnd, hlen, hbound, hval, htaken⟩ := hinv
  unfold placeChosen
  cases hlk : st.taken.lookup chosen with
  | some i =>
    rw [htaken] at hlk
    obtain ⟨h0i, hilt, hget⟩ := lookup_takenOfFrom_some 0 st.pos chosen i hlk
    have hset : st.pos.set i chosen = st.pos :=
      set_self_of_getElem? _ _ _ (by simpa using hget)
    refine ⟨⟨by simp [hset, hnd], by simp [hset, hlen], by simp only [hset]; exact hbound,
      ?_, by simp [hset, htaken]⟩, by simp [hset]⟩
    intro w hw
    rcases List.mem_or_eq_of_mem_set hw with h | h
    · exact hval w h
    · subst h; exact hv
  | none =>
    rw [htaken] at hlk
    have hnotmem : chosen ∉ st.pos := (lookup_takenOfFrom_none 0 st.pos chosen).mp hlk
    refine ⟨⟨?_, ?_, ?_, ?_, ?_⟩, ?_⟩
    · simp [List.nodup_append, hnd, hnotmem]
    · simp [hlen]
    · intro p hp
      rcases List.mem_append.mp hp with h | h
      · exact hbound p h
      · simp only [List.mem_singleton] at h
        subst h; exact hch
    · intro w hw
      rcases List.mem_append.mp hw with h | h
      · exact hval w h
      · simp only [List.mem_singleton] at h
        subst h; exact hv
    · show st.taken ++ [(chosen, st.pos.length)] = takenOfFrom 0 (st.pos ++ [chosen])
      rw [takenOfFrom_append, htaken]
      simp
    · simp

theorem usadStep_inv (hashing : HashingConfig) (elev : List ℚ) (st : EncState)
    (orig : ℕ) (hdim : hashing.dim ≠ 0) (hinv : EncInv hashing.dim st) :
    EncInv hashing.dim (usadStep hashing elev st orig) ∧
      (usadStep hashing elev st orig).pos.length ≤ st.pos.length + 1 := by
  unfold usadStep
  by_cases hv0 : elev.getD orig 0 = 0
  · simp only [hv0, if_pos rfl]
    exact ⟨hinv, Nat.le_succ _⟩
  · simp only [if_neg hv0]
    cases hc : usadChoose hashing st orig (elev.getD orig 0) with
    | none => exact ⟨hinv, Nat.le_succ _⟩
    | some chosen =>
      have hch : chosen < hashing.dim := by
        rcases usadChoose_mem hashing st orig _ chosen hc with h | h <;>
          (subst h; exact Nat.mod_lt _ (Nat.pos_of_ne_zero hdim))
      exact placeChosen_inv hashing.dim st chosen _ hch hv0 hinv

theorem foldl_usadStep_inv (hashing : HashingConfig) (elev : List ℚ)
    (hdim : hashing.dim ≠ 0) (idxs : List ℕ) :
    ∀ st : EncState, EncInv hashing.dim st →
      EncInv hashing.dim (idxs.foldl (usadStep hashing elev) st) ∧
      (idxs.foldl (usadStep hashing elev) st).pos.length
        ≤ st.pos.length + idxs.length := by
  induction idxs with
  | nil => intro st h; exact ⟨h, by simp⟩
  | cons x xs ih =>
    intro st h
    obtain ⟨h1, h2⟩ := usadStep_inv hashing elev st x hdim h
    obtain ⟨h3, h4⟩ := ih _ h1
    refine ⟨h3, ?_⟩
    simp only [List.foldl_cons, List.length_cons]
    omega

theorem insertIdxDesc_length (key : ℕ → ℚ) (x : ℕ) (l : List ℕ) :
    (insertIdxDesc key x l).length = l.length + 1 := by
  induction l with
  | nil => rfl
  | cons y ys ih =>
    rw [insertIdxDesc]
    split
    · simp
    · simp [ih]

theorem sortIdxDesc_length (key : ℕ → ℚ) (l : List ℕ) :
    (sortIdxDesc key l).length = l.length := by
  suffices h : ∀ acc : List ℕ,
      (l.foldl (fun acc x => insertIdxDesc key x acc) acc).length
        = acc.length + l.length from by simpa using h []
  induction l with
  | nil => intro acc; simp
  | cons x xs ih =>
    intro acc
    simp only [List.foldl_cons, List.length_cons]
    rw [ih, insertIdxDesc_length]
    omega

theorem retainIdxs_length_le (k : ℕ) (elev : List ℚ) :
    (retainIdxs k elev).length ≤ k := by
  unfold retainIdxs
  split
  · simp [sortIdxDesc_length]
  · rename_i h
    rw [sortIdxDesc_length, List.length_range]
    omega

/-- Everything the data-model invariant asserts about a built signature,
from the loop invariant of the placement state. -/
theorem buildSignature_spec (dim k : ℕ) (fin : EncState)
    (hinv : EncInv dim fin) (hlen : fin.pos.length ≤ k) :
    List.Sorted (· < ·) (buildSignature fin).idx ∧
    (∀ p ∈ (buildSignature fin).idx, p < dim) ∧
    (buildSignature fin).idx.length = (buildSignature fin).val.length ∧
    (buildSignature fin).val.length ≤ k ∧
    (∀ v ∈ (buildSignature fin).val, v ≠ 0) ∧
    (buildSignature fin).normSq = sumSq (buildSignature fin).val := by
  obtain ⟨hnd, hvlen, hbound, hval, -⟩ := hinv
  unfold buildSignature
  split
  · simp [sumSq]
  · rename_i hne
    set pairs := sortPairsAsc (fin.pos.zip fin.val) with hpairs
    have hperm : pairs.Perm (fin.pos.zip fin.val) := sortPairsAsc_perm _
    have hfst_zip : (fin.pos.zip fin.val).map Prod.fst = fin.pos :=
      List.map_fst_zip _ _ (le_of_eq hvlen.symm)
    have hsnd_zip : (fin.pos.zip fin.val).map Prod.snd = fin.val :=
      List.map_snd_zip _ _ (le_of_eq hvlen)
    have hfst_perm : (pairs.map Prod.fst).Perm fin.pos := by
      rw [← hfst_zip]; exact hperm.map Prod.fst
    have hsnd_perm : (pairs.map Prod.snd).Perm fin.val := by
      rw [← hsnd_zip]; exact hperm.map Prod.snd
    have hnd2 : (pairs.map Prod.fst).Nodup := hfst_perm.nodup_iff.mpr hnd
    have hsorted_le : (pairs.map Prod.fst).Pairwise (· ≤ ·) :=
      List.pairwise_map.mpr (sortPairsAsc_pairwise _)
    have hsorted_lt : (pairs.map Prod.fst).Pairwise (· < ·) := by
      have hcomb := hsorted_le.and hnd2
      exact hcomb.imp (fun h => lt_of_le_of_ne h.1 h.2)
    refine ⟨hsorted_lt, ?_, ?_, ?_, ?_, rfl⟩
    · intro p hp
      exact hbound p (hfst_perm.mem_iff.mp hp)
    · simp
    · have : (pairs.map Prod.snd).length = fin.val.length := hsnd_perm.length_eq
      simp only [List.length_map] at this ⊢
      rw [this, hvlen]
      exact hlen
    · intro v hv
      exact hval v (hsnd_perm.mem_iff.mp hv)

/-- The shared encoder specification: for a valid configuration the encoder
succeeds, and the resulting signature satisfies the data-model invariant
(strictly ascending unique in-range positions, aligned nonzero values, at
most k of them, and the stored sum of squares). -/
theorem encodeSparseSignature_ok_spec (vec : List ℚ) (k : ℕ)
    (hashing : HashingConfig) (clip : ℚ) (s : SparseSignature)
    (hk : k ≠ 0) (hdim : hashing.dim ≠ 0)
    (henc : encodeSparseSignature vec k hashing clip = .ok s) :
    List.Sorted (· < ·) s.idx ∧ (∀ p ∈ s.idx, p < hashing.dim) ∧
    s.idx.length = s.val.length ∧ s.val.length ≤ k ∧
    (∀ v ∈ s.val, v ≠ 0) ∧ s.normSq = sumSq s.val := by
  unfold encodeSparseSignature at henc
  rw [if_neg hk, if_neg hdim] at henc
  simp only [Except.ok.injEq] at henc
  subst henc
  have hinv0 : EncInv hashing.dim ⟨[], [], []⟩ := by
    refine ⟨List.nodup_nil, rfl, ?_, ?_, rfl⟩ <;> simp
  obtain ⟨hinv, hplen⟩ := foldl_usadStep_inv hashing (clipElev (robustZ vec) clip)
    hdim (retainIdxs k (clipElev (robustZ vec) clip)) ⟨[], [], []⟩ hinv0
  have hlen : ((retainIdxs k (clipElev (robustZ vec) clip)).foldl
      (usadStep hashing (clipElev (robustZ vec) clip)) ⟨[], [], []⟩).pos.length ≤ k := by
    have := retainIdxs_length_le k (clipElev (robustZ vec) clip)
    simp only [List.length_nil] at hplen
    omega
  exact buildSignature_spec hashing.dim k _ hinv hlen

/-- For a valid configuration the encoder never throws. -/
theorem encodeSparseSignature_isOk (vec : List ℚ) (k : ℕ)
    (hashing : HashingConfig) (clip : ℚ) (hk : k ≠ 0) (hdim : hashing.dim ≠ 0) :
    ∃ s, encodeSparseSignature vec k hashing clip = .ok s := by
  unfold encodeSparseSignature
  rw [if_neg hk, if_neg hdim]
  exact ⟨_, rfl⟩

/-! ### Claim C4: the data-model invariant of encoded signatures -/

/-- C4. For every input vector and valid configuration (k > 0, dim > 0),
the encoded signature has strictly ascending (hence unique) positions, all
in [0, dim), positions and values of equal length, that length at most k,
and a stored norm equal to the L2 norm of the values. -/
theorem encodeSparseSignature_invariants (vec : List ℚ) (k : ℕ)
    (hashing : HashingConfig) (clip : ℚ) (s : SparseSignature)
    (hk : 0 < k) (hdim : 0 < hashing.dim)
    (henc : encodeSparseSignature vec k hashing clip = .ok s) :
    List.Sorted (· < ·) s.idx ∧ s.idx.Nodup ∧
    (∀ p ∈ s.idx, p < hashing.dim) ∧ s.idx.length = s.val.length ∧
    s.val.length ≤ k ∧ s.norm = Real.sqrt ((sumSq s.val : ℚ) : ℝ) := by
  obtain ⟨h1, h2, h3, h4, h5, h6⟩ := encodeSparseSignature_ok_spec vec k hashing
    clip s (Nat.pos_iff_ne_zero.mp hk) (Nat.pos_iff_ne_zero.mp hdim) henc
  refine ⟨h1, h1.imp ne_of_lt, h2, h3, h4, ?_⟩
  unfold SparseSignature.norm
  rw [h6]

/-- Witness for C4 at a concrete input (dimension 1, k = 2, empty salts,
clipping disabled). -/
theorem encodeSparseSignature_invariants_witness :
    List.Sorted (· < ·)
      (⟨[0], [5000000000000000 / 7413],
        25000000000000000000000000000000 / 54952569⟩ : SparseSignature).idx ∧
    (⟨[0], [5000000000000000 / 7413],
        25000000000000000000000000000000 / 54952569⟩ : SparseSignature).idx.Nodup ∧
    (∀ p ∈ (⟨[0], [5000000000000000 / 7413],
        25000000000000000000000000000000 / 54952569⟩ : SparseSignature).idx,
      p < (⟨1, [], [], true⟩ : HashingConfig).dim) ∧
    (⟨[0], [5000000000000000 / 7413],
        25000000000000000000000000000000 / 54952569⟩ : SparseSignature).idx.length
      = (⟨[0], [5000000000000000 / 7413],
        25000000000000000000000000000000 / 54952569⟩ : SparseSignature).val.length ∧
    (⟨[0], [5000000000000000 / 7413],
        25000000000000000000000000000000 / 54952569⟩ : SparseSignature).val.length ≤ 2 ∧
    (⟨[0], [5000000000000000 / 7413],
        25000000000000000000000000000000 / 54952569⟩ : SparseSignature).norm
      = Real.sqrt ((sumSq (⟨[0], [5000000000000000 / 7413],
        25000000000000000000000000000000 / 54952569⟩ : SparseSignature).val : ℚ) : ℝ) :=
  encodeSparseSignature_invariants [0, 0, 0, 1, -1] 2 ⟨1, [], [], true⟩ 0
    ⟨[0], [5000000000000000 / 7413], 25000000000000000000000000000000 / 54952569⟩
    (by decide) (by decide) (by rfl)

/-! ### Claim C5: self-similarity of encoded signatures -/

theorem mergeDot_self (ai : List ℕ) (av : List ℚ) (hlen : ai.length = av.length) :
    mergeDot ai av ai av = sumSq av := by
  induction ai generalizing av with
  | nil =>
    cases av with
    | nil => simp [mergeDot, sumSq]
    | cons v vs => simp at hlen
  | cons p ps ih =>
    cases av with
    | nil => simp at hlen
    | cons v vs =>
      rw [mergeDot]
      simp only [if_pos rfl, sumSq, List.map_cons, List.sum_cons]
      rw [ih vs (by simpa using hlen)]
      rfl

theorem sumSq_nonneg (l : List ℚ) : 0 ≤ sumSq l := by
  induction l with
  | nil => simp [sumSq]
  | cons v vs ih =>
    simp only [sumSq, List.map_cons, List.sum_cons] at ih ⊢
    nlinarith [sq_nonneg v, mul_self_nonneg v]

theorem sumSq_pos (l : List ℚ) (hne : l ≠ []) (hnz : ∀ v ∈ l, v ≠ 0) :
    0 < sumSq l := by
  cases l with
  | nil => exact absurd rfl hne
  | cons v vs =>
    have h1 : 0 < v * v := mul_self_pos.mpr (hnz v (by simp))
    have h2 : 0 ≤ sumSq vs := sumSq_nonneg vs
    simp only [sumSq, List.map_cons, List.sum_cons]
    have : sumSq vs = (vs.map (fun v => v * v)).sum := rfl
    nlinarith

/-- The self-cosine of a well-formed signature with positive energy is
strictly below 1: the eps in the denominator makes the quotient
normSq / (sqrt normSq + eps)^2. -/
theorem cosineSparse_self_lt_one_aux (s : SparseSignature) (eps : ℚ)
    (hlen : s.idx.length = s.val.length) (hnormSq : s.normSq = sumSq s.val)
    (hpos : 0 < sumSq s.val) (heps : 0 < eps) :
    cosineSparse s s eps < 1 := by
  have hdot : mergeDot s.idx s.val s.idx s.val = sumSq s.val :=
    mergeDot_self s.idx s.val hlen
  set S : ℝ := ((sumSq s.val : ℚ) : ℝ) with hS
  have hSpos : 0 < S := by rw [hS]; exact_mod_cast hpos
  have hnorm : s.norm = Real.sqrt S := by
    unfold SparseSignature.norm
    rw [hnormSq]
  have hsqrtpos : 0 < Real.sqrt S := Real.sqrt_pos.mpr hSpos
  have hepsR : (0 : ℝ) < (eps : ℚ) := by exact_mod_cast heps
  unfold cosineSparse
  rw [hdot, hnorm]
  have hdenpos : 0 < (Real.sqrt S + (eps : ℚ)) * (Real.sqrt S + (eps : ℚ)) := by
    positivity
  rw [if_pos hdenpos]
  rw [div_lt_one hdenpos]
  have hsq : Real.sqrt S * Real.sqrt S = S := Real.mul_self_sqrt hSpos.le
  nlinarith [hsqrtpos, hepsR, hsq]

/-- The self-cosine of a well-formed signature with positive energy and no
eps contribution in the denominator is exactly 1: the quotient collapses
to normSq / (sqrt normSq)^2. This is the regime the code reaches in double
precision whenever norm + 1e-12 rounds back to norm. -/
theorem cosineSparse_self_eps_zero_aux (s : SparseSignature)
    (hlen : s.idx.length = s.val.length) (hnormSq : s.normSq = sumSq s.val)
    (hpos : 0 < sumSq s.val) :
    cosineSparse s s 0 = 1 := by
  have hdot : mergeDot s.idx s.val s.idx s.val = sumSq s.val :=
    mergeDot_self s.idx s.val hlen
  set S : ℝ := ((sumSq s.val : ℚ) : ℝ) with hS
  have hSpos : 0 < S := by rw [hS]; exact_mod_cast hpos
  have hnorm : s.norm = Real.sqrt S := by
    unfold SparseSignature.norm
    rw [hnormSq]
  have hsq : Real.sqrt S * Real.sqrt S = S := Real.mul_self_sqrt hSpos.le
  unfold cosineSparse
  rw [hdot, hnorm, Rat.cast_zero, add_zero]
  have hdenpos : 0 < Real.sqrt S * Real.sqrt S := by rw [hsq]; exact hSpos
  rw [if_pos hdenpos, hsq, ← hS]
  exact div_self (ne_of_gt hSpos)

/-- The signature encoded from [0, 1, 2, 3, 4] with k = 2, dimension 1,
empty salts and no clipping: the nonzero MAD (= 1) gives a single stored
value -2 / (1.4826 * (1 + 1e-12)), so the norm is about 1.35. -/
def smallNormSig : SparseSignature :=
  ⟨[0], [-10000000000000000 / 7413000000007413],
    100000000000000000000000000000000 / 54952569000109905138000054952569⟩

/-- C5, counterexample. The claim cosine(encode v, encode v) == 1 fails at
the concrete vector [0, 1, 2, 3, 4] (k = 2, dimension 1, empty salts, no
clipping): the nonzero MAD makes the signature's single value about -1.35,
a norm small enough that adding the eps = 1e-12 of cosineSparse genuinely
perturbs the denominator — in double precision too, since the ulp of 1.35
is about 2e-16 — so the code returns about 1 - 1.5e-12, strictly short
of 1. (A large-norm signature would not witness this: once the norm is
large enough that norm + 1e-12 rounds back to norm in double precision,
the addition is absorbed and the code does return exactly 1.) -/
theorem cosineSparse_self_counterexample :
    encodeSparseSignature [0, 1, 2, 3, 4] 2 ⟨1, [], [], true⟩ 0
      = .ok smallNormSig ∧
    smallNormSig.idx ≠ [] ∧
    cosineSparse smallNormSig smallNormSig ≠ 1 := by
  refine ⟨by rfl, by simp [smallNormSig], ne_of_lt ?_⟩
  exact cosineSparse_self_lt_one_aux _ _ (by decide) (by decide) (by decide) (by decide)

/-- C5, amended: the self cosine of a nonempty encoded signature is
normSq / (sqrt normSq + eps_eff)^2, where eps_eff is the part of the
eps = 1e-12 regularisation that survives the floating-point addition
norm + eps. The dichotomy: with no surviving eps contribution (eps_eff =
0, which double precision produces whenever the norm is large enough to
absorb 1e-12) the self-cosine is exactly 1, and with a positive surviving
contribution (small norms, e.g. from vectors with nonzero MAD) it is
strictly below 1. -/
theorem cosineSparse_encode_self_spec (vec : List ℚ) (k : ℕ)
    (hashing : HashingConfig) (clip : ℚ) (s : SparseSignature)
    (hk : 0 < k) (hdim : 0 < hashing.dim)
    (henc : encodeSparseSignature vec k hashing clip = .ok s)
    (hne : s.idx ≠ []) :
    cosineSparse s s 0 = 1 ∧ ∀ eps : ℚ, 0 < eps → cosineSparse s s eps < 1 := by
  obtain ⟨h1, h2, h3, h4, h5, h6⟩ := encodeSparseSignature_ok_spec vec k hashing
    clip s (Nat.pos_iff_ne_zero.mp hk) (Nat.pos_iff_ne_zero.mp hdim) henc
  have hvne : s.val ≠ [] := by
    intro hv
    apply hne
    have := h3
    rw [hv] at this
    simpa using List.length_eq_zero.mp this
  have hpos := sumSq_pos s.val hvne h5
  exact ⟨cosineSparse_self_eps_zero_aux s h3 h6 hpos,
    fun eps heps => cosineSparse_self_lt_one_aux s eps h3 h6 hpos heps⟩

/-- Witness for the amended C5 at the concrete input [0, 1, 2, 3, 4]: with
the eps contribution gone the self-cosine is exactly 1, with an effective
eps = 1e-12 it is strictly below 1. -/
theorem cosineSparse_encode_self_spec_witness :
    cosineSparse smallNormSig smallNormSig 0 = 1 ∧
    cosineSparse smallNormSig smallNormSig (1 / 10 ^ 12) < 1 := by
  have h := cosineSparse_encode_self_spec [0, 1, 2, 3, 4] 2 ⟨1, [], [], true⟩ 0
    smallNormSig (by decide) (by decide) (by rfl) (by simp [smallNormSig])
  exact ⟨h.1, h.2 (1 / 10 ^ 12) (by norm_num)⟩

/-! ### Claim C7: when calibrate fails -/

theorem conformalQuantile_isOk_iff (scores : List ℝ) (alpha : ℚ) :
    (∃ t, conformalQuantile scores alpha = .ok t)
      ↔ (scores ≠ [] ∧ 0 < alpha ∧ alpha < 1) := by
  unfold conformalQuantile
  by_cases hc : 0 < alpha ∧ alpha < 1
  · rw [if_neg (not_not_intro hc)]
    by_cases hn : scores.length = 0
    · rw [if_pos hn]
      simp [List.length_eq_zero.mp hn]
    · rw [if_neg hn]
      simp only [Except.ok.injEq, exists_eq']
      exact iff_of_true trivial ⟨fun h => hn (by simp [h]), hc⟩
  · rw [if_pos hc]
    simp only [reduceCtorEq, exists_false, false_iff, not_and]
    intro _ h0 h1
    exact hc ⟨h0, h1⟩

theorem mapM_encode_ok (det : USADetector) (cal : List (List ℚ))
    (hk : det.k ≠ 0) (hdim : det.hashing.dim ≠ 0) :
    ∃ sigs : List SparseSignature,
      cal.mapM det.encode = .ok sigs ∧ sigs.length = cal.length := by
  induction cal with
  | nil => exact ⟨[], rfl, rfl⟩
  | cons v vs ih =>
    obtain ⟨s, hs⟩ := encodeSparseSignature_isOk v det.k det.hashing det.clip hk hdim
    obtain ⟨sigs, hsigs, hlen⟩ := ih
    refine ⟨s :: sigs, ?_, by simp [hlen]⟩
    rw [List.mapM_cons]
    have hv : det.encode v = .ok s := hs
    rw [hv, hsigs]
    rfl

/-- C7. With a valid encoder configuration, calibrate succeeds exactly when
the calibration collection is nonempty and alpha lies in (0, 1); on success
the returned threshold is stored and is the conformal quantile of the
stored scores. -/
theorem calibrate_raises_iff (det : USADetector) (cal : List (List ℚ))
    (hk : det.k ≠ 0) (hdim : det.hashing.dim ≠ 0) :
    ((∃ r, det.calibrate cal = .ok r) ↔ cal ≠ [] ∧ 0 < det.alpha ∧ det.alpha < 1) ∧
    ∀ t det', det.calibrate cal = .ok (t, det') →
      det'.thr = some t ∧ conformalQuantile det'.calScores det.alpha = .ok t := by
  obtain ⟨sigs, hsigs, hslen⟩ := mapM_encode_ok det cal hk hdim
  unfold USADetector.calibrate
  rw [hsigs]
  simp only [Bind.bind, Except.bind]
  by_cases hcal : cal = []
  · subst hcal
    have : sigs = [] := List.length_eq_zero.mp (by simpa using hslen)
    subst this
    simp
  · have hlen0 : sigs.length ≠ 0 := by
      rw [hslen]
      exact fun h => hcal (List.length_eq_zero.mp h)
    rw [if_neg hlen0]
    simp only [pure, Except.pure]
    have hscne : (List.range sigs.length).map (looScore det.kNN sigs) ≠ [] := by
      simp only [ne_eq, List.map_eq_nil_iff, List.range_eq_nil]
      exact hlen0
    cases hq : conformalQuantile ((List.range sigs.length).map (looScore det.kNN sigs))
        det.alpha with
    | error e =>
      simp only [hq]
      constructor
      · simp only [reduceCtorEq, exists_false, false_iff, not_and]
        intro _ h0 h1
        obtain ⟨t, ht⟩ := (conformalQuantile_isOk_iff _ det.alpha).mpr ⟨hscne, h0, h1⟩
        rw [hq] at ht
        exact absurd ht (by simp)
      · intro t det' h
        exact absurd h (by simp)
    | ok t0 =>
      simp only [hq]
      constructor
      · simp only [Except.ok.injEq, exists_eq', true_iff]
        refine ⟨hcal, ?_⟩
        have := (conformalQuantile_isOk_iff _ det.alpha).mp ⟨t0, hq⟩
        exact this.2
      · intro t det' h
        simp only [Except.ok.injEq, Prod.mk.injEq] at h
        obtain ⟨ht, hdet⟩ := h
        subst ht
        subst hdet
        exact ⟨rfl, hq⟩

/-- A concrete detector with the constructor defaults of usad.js. -/
def defaultDetector : USADetector :=
  ⟨⟨4096, DEFAULT_SALT1, DEFAULT_SALT2, true⟩, 16, 1 / 10, 25, 95 / 100, [], [], none⟩

/-- Witness for C7 at a concrete detector and empty calibration list. -/
theorem calibrate_raises_iff_witness :
    ((∃ r, defaultDetector.calibrate [] = .ok r) ↔
      ([] : List (List ℚ)) ≠ [] ∧
        0 < defaultDetector.alpha ∧ defaultDetector.alpha < 1) ∧
    ∀ t det', defaultDetector.calibrate [] = .ok (t, det') →
      det'.thr = some t ∧ conformalQuantile det'.calScores defaultDetector.alpha = .ok t :=
  calibrate_raises_iff defaultDetector [] (by decide) (by decide)

/-! ### Claim C10: the frame effect of updateIfNormal -/

/-- C10. For a calibrated detector (nonempty pool, stored threshold, alpha
in (0, 1), valid encoder configuration): updateIfNormal succeeds; it
returns false and leaves the detector entirely unchanged when predict says
anomaly; it returns true, appends exactly one signature and exactly one
score, recomputes the threshold as the conformal quantile of the extended
score list, and changes nothing else when predict says normal. -/
theorem updateIfNormal_frame (det : USADetector) (x : List ℚ)
    (hk : det.k ≠ 0) (hdim : det.hashing.dim ≠ 0)
    (hcal : det.calSigs ≠ []) (t0 : ℝ) (hthr : det.thr = some t0)
    (h0 : 0 < det.alpha) (h1 : det.alpha < 1) :
    ∃ b det', det.updateIfNormal x = .ok (b, det') ∧
      (∀ pb ps pt, det.predict x = .ok (pb, ps, pt) → b = !pb) ∧
      (b = false → det' = det) ∧
      (b = true → ∃ sx sc t,
        encodeSparseSignature x det.k det.hashing det.clip = .ok sx ∧
        det'.calSigs = det.calSigs ++ [sx] ∧
        det'.calScores = det.calScores ++ [sc] ∧
        det'.thr = some t ∧
        conformalQuantile (det.calScores ++ [sc]) det.alpha = .ok t ∧
        det'.hashing = det.hashing ∧ det'.k = det.k ∧ det'.alpha = det.alpha ∧
        det'.kNN = det.kNN ∧ det'.clip = det.clip) := by
  obtain ⟨sx, hsx⟩ := encodeSparseSignature_isOk x det.k det.hashing det.clip hk hdim
  have hsx' : det.encode x = .ok sx := hsx
  have hlen0 : ¬det.calSigs.length = 0 := fun h => hcal (List.length_eq_zero.mp h)
  set dists := (det.calSigs.map (fun s => distanceSparse sx s)).insertionSort (· ≤ ·)
    with hdists
  set ncs : ℝ := (dists.take (min det.kNN dists.length)).sum
      / ((min det.kNN dists.length : ℕ) : ℝ) with hncs
  have hnc : det.nonconformity x = .ok ncs := by
    unfold USADetector.nonconformity
    rw [if_neg hlen0]
    simp only [Bind.bind, Except.bind, hsx', pure, Except.pure]
  have hth : det.threshold = .ok t0 := by
    unfold USADetector.threshold
    rw [hthr]
  have hpred : det.predict x = .ok (decide (t0 < ncs), ncs, t0) := by
    unfold USADetector.predict
    simp only [Bind.bind, Except.bind, hnc, hth, pure, Except.pure]
  have hdlen : ¬dists.length = 0 := by
    rw [hdists]
    intro h
    rw [List.length_eq_zero] at h
    have := List.perm_insertionSort (· ≤ ·) (det.calSigs.map (fun s => distanceSparse sx s))
    rw [h] at this
    have h2 := this.symm.length_eq
    simp at h2
    exact hcal (List.length_eq_zero.mp (by simpa using h2))
  by_cases hb : t0 < ncs
  · -- anomaly: nothing changes
    refine ⟨false, det, ?_, ?_, fun _ => rfl, by simp⟩
    · unfold USADetector.updateIfNormal
      simp only [Bind.bind, Except.bind, hpred, pure, Except.pure]
      rw [if_pos (by simpa using hb)]
    · intro pb ps pt hp
      rw [hpred] at hp
      simp only [Except.ok.injEq, Prod.mk.injEq] at hp
      rw [← hp.1]
      simp [hb]
  · -- normal: absorb
    have hqok : ∃ t, conformalQuantile (det.calScores ++ [ncs]) det.alpha = .ok t :=
      (conformalQuantile_isOk_iff _ det.alpha).mpr ⟨by simp, h0, h1⟩
    obtain ⟨t, hq⟩ := hqok
    refine ⟨true,
      ⟨det.hashing, det.k, det.alpha, det.kNN, det.clip,
        det.calSigs ++ [sx], det.calScores ++ [ncs], some t⟩, ?_, ?_, by simp, ?_⟩
    · unfold USADetector.updateIfNormal
      simp only [Bind.bind, Except.bind, hpred, pure, Except.pure]
      rw [if_neg (by simpa using hb)]
      simp only [hsx', hdists.symm]
      rw [if_pos hdlen, ← hncs]
      simp only [hq]
    · intro pb ps pt hp
      rw [hpred] at hp
      simp only [Except.ok.injEq, Prod.mk.injEq] at hp
      rw [← hp.1]
      simp [hb]
    · intro _
      exact ⟨sx, ncs, t, hsx, rfl, rfl, rfl, hq, rfl, rfl, rfl, rfl, rfl⟩

/-- A concrete calibrated detector (one pool member, stored threshold). -/
noncomputable def calibratedDetector : USADetector :=
  ⟨⟨1, [], [], true⟩, 2, 1 / 10, 25, 0, [⟨[], [], 0⟩], [(0 : ℝ)], some (1 / 2)⟩

/-- Witness for C10 at a concrete calibrated detector and input. -/
theorem updateIfNormal_frame_witness :
    ∃ b det', calibratedDetector.updateIfNormal [] = .ok (b, det') ∧
      (∀ pb ps pt, calibratedDetector.predict [] = .ok (pb, ps, pt) → b = !pb) ∧
      (b = false → det' = calibratedDetector) ∧
      (b = true → ∃ sx sc t,
        encodeSparseSignature [] calibratedDetector.k calibratedDetector.hashing
          calibratedDetector.clip = .ok sx ∧
        det'.calSigs = calibratedDetector.calSigs ++ [sx] ∧
        det'.calScores = calibratedDetector.calScores ++ [sc] ∧
        det'.thr = some t ∧
        conformalQuantile (calibratedDetector.calScores ++ [sc])
          calibratedDetector.alpha = .ok t ∧
        det'.hashing = calibratedDetector.hashing ∧ det'.k = calibratedDetector.k ∧
        det'.alpha = calibratedDetector.alpha ∧ det'.kNN = calibratedDetector.kNN ∧
        det'.clip = calibratedDetector.clip) :=
  updateIfNormal_frame calibratedDetector [] (by decide) (by decide)
    (by simp [calibratedDetector]) (1 / 2) rfl (by decide) (by decide)

/-! ### Claim C8: the KK kernel score decomposition -/

theorem anomalySet_nodup (Q : KSignature) (M : ℕ) : (anomalySet Q M).Nodup := by
  unfold anomalySet
  exact List.nodup_dedup _

/-- The code's hit-counting loop computes exactly the cardinality ratio of
the specification: |A_Q cap positions X| / |A_Q|. -/
theorem anomalyOverlapFrac_eq_card (Q X : KSignature) (M : ℕ) :
    ((anomalyOverlapFrac Q X M : ℚ) : ℝ)
      = ((((anomalySet Q M).toFinset ∩ X.positions.toFinset).card : ℝ)
          / (((anomalySet Q M).toFinset.card : ℕ) : ℝ)) := by
  unfold anomalyOverlapFrac
  have hnd : (anomalySet Q M).Nodup := anomalySet_nodup Q M
  by_cases hA : (anomalySet Q M).length = 0
  · rw [if_pos hA]
    rw [List.length_eq_zero] at hA
    simp [hA]
  · rw [if_neg hA]
    have hfnd : ((anomalySet Q M).filter (fun p => X.positions.contains p)).Nodup :=
      hnd.filter _
    have hset : (anomalySet Q M).toFinset ∩ X.positions.toFinset
        = ((anomalySet Q M).filter (fun p => X.positions.contains p)).toFinset := by
      ext p
      simp [List.mem_filter]
    have hcard : ((anomalySet Q M).toFinset ∩ X.positions.toFinset).card
        = ((anomalySet Q M).filter (fun p => X.positions.contains p)).length := by
      rw [hset, List.toFinset_card_of_nodup hfnd]
    have hlen : (anomalySet Q M).toFinset.card = (anomalySet Q M).length :=
      List.toFinset_card_of_nodup hnd
    rw [hcard, hlen]
    push_cast
    rfl

/-- C8. The KK kernel total factors exactly as base cosine times
(1 + beta * overlap + gamma * agreement), with the overlap fraction equal
to the specification formula |A_Q cap positions(X)| / |A_Q| (0 when A_Q is
empty, by the 0-division convention) and the agreement the cosine
restricted to the coordinates of A_Q as computed by the code (with the
same eps regularisation the kernel applies to the base cosine). -/
theorem kkScore_total_spec (Q X : KSignature) (beta gamma : ℚ) (M : ℕ) (eps : ℚ) :
    (kkScore Q X beta gamma M eps).total
      = baseCosine Q X eps
        * (1 + (beta : ℝ) * ((((anomalySet Q M).toFinset ∩ X.positions.toFinset).card : ℝ)
              / (((anomalySet Q M).toFinset.card : ℕ) : ℝ))
          + (gamma : ℝ) * anomalyAgreementCosine Q X M eps) := by
  unfold kkScore
  simp only
  rw [← anomalyOverlapFrac_eq_card]

/-! ### Claim C6: multi-scale scoring semantics -/

/-- C6. Every call scores each scale against the ring contents from before
the push: the per-scale novelties are 1 minus the top-k average over the
pre-call rings (novelty 1 on an empty ring), the combined score is their
arithmetic mean, and the new state pushes the signature dictionary onto
every ring only after scoring, so a signature never contributes to its own
score. -/
theorem update_and_score_spec (ms : MultiScaleAnomaly) (sig : KSignature)
    (hne : ms.hist ≠ []) :
    ((ms.update_and_score sig).1.2
        = ms.hist.map (fun sr => (sr.1, 1 - msTopkAvg sr.2 (msToDict sig) ms.knn_k))) ∧
    ((ms.update_and_score sig).1.1
        = ((ms.update_and_score sig).1.2.map (fun x => x.2)).sum
            / ((ms.update_and_score sig).1.2.length : ℝ)) ∧
    (∀ sr ∈ ms.hist, sr.2.buf = [] →
      1 - msTopkAvg sr.2 (msToDict sig) ms.knn_k = 1) ∧
    ((ms.update_and_score sig).2.hist
        = ms.hist.map (fun sr => (sr.1, pushRing sr.2 (msToDict sig)))) := by
  refine ⟨rfl, ?_, ?_, rfl⟩
  · show (if (ms.hist.map
        (fun sr => (sr.1, 1 - msTopkAvg sr.2 (msToDict sig) ms.knn_k))).length ≠ 0
      then ((ms.hist.map (fun sr => (sr.1, 1 - msTopkAvg sr.2 (msToDict sig) ms.knn_k))).map
          (fun x => x.2)).sum
        / ((ms.hist.map (fun sr => (sr.1, 1 - msTopkAvg sr.2 (msToDict sig) ms.knn_k))).length : ℝ)
      else 0) = _
    rw [if_pos (by simpa using hne)]
    rfl
  · intro sr hsr hbuf
    unfold msTopkAvg
    rw [if_pos hbuf]
    ring

/-- A concrete one-scale tracker state. -/
def trackerW : MultiScaleAnomaly := ⟨[64], 5, [(64, ⟨[], 64⟩)]⟩

/-- A concrete signature for the tracker witness. -/
def sigTrackerW : KSignature := ⟨[], [], 4⟩

/-- Witness for C6 at a concrete one-scale tracker and empty signature. -/
theorem update_and_score_spec_witness :
    ((trackerW.update_and_score sigTrackerW).1.2
        = trackerW.hist.map
            (fun sr => (sr.1, 1 - msTopkAvg sr.2 (msToDict sigTrackerW) trackerW.knn_k))) ∧
    ((trackerW.update_and_score sigTrackerW).1.1
        = ((trackerW.update_and_score sigTrackerW).1.2.map (fun x => x.2)).sum
            / ((trackerW.update_and_score sigTrackerW).1.2.length : ℝ)) ∧
    (∀ sr ∈ trackerW.hist, sr.2.buf = [] →
      1 - msTopkAvg sr.2 (msToDict sigTrackerW) trackerW.knn_k = 1) ∧
    ((trackerW.update_and_score sigTrackerW).2.hist
        = trackerW.hist.map (fun sr => (sr.1, pushRing sr.2 (msToDict sigTrackerW)))) :=
  update_and_score_spec trackerW sigTrackerW (by simp [trackerW])

/-! ### Claim C9: ring capacity and FIFO eviction -/

/-- The tracker state after a sequence of update_and_score calls. -/
noncomputable def applyTracker (scales : List ℕ) (knn_k : ℕ)
    (sigs : List KSignature) : MultiScaleAnomaly :=
  sigs.foldl (fun ms sig => (ms.update_and_score sig).2)
    (MultiScaleAnomaly.init scales knn_k)

theorem pushRing_cap (r : HistoryRing) (q : QDict) :
    (pushRing r q).cap = r.cap := rfl

theorem pushRing_length_le (r : HistoryRing) (q : QDict)
    (h : r.buf.length ≤ r.cap) : (pushRing r q).buf.length ≤ r.cap := by
  unfold pushRing
  split
  · rename_i hover
    simp only [List.length_tail, List.length_append, List.length_cons,
      List.length_nil]
    omega
  · rename_i hover
    simp only [List.length_append, List.length_cons, List.length_nil] at hover ⊢
    omega

theorem applyTracker_bounded (scales : List ℕ) (knn_k : ℕ)
    (sigs : List KSignature) :
    ∀ sr ∈ (applyTracker scales knn_k sigs).hist, sr.2.buf.length ≤ sr.2.cap := by
  unfold applyTracker
  suffices h : ∀ ms : MultiScaleAnomaly,
      (∀ sr ∈ ms.hist, sr.2.buf.length ≤ sr.2.cap) →
      ∀ sr ∈ (sigs.foldl (fun ms sig => (ms.update_and_score sig).2) ms).hist,
        sr.2.buf.length ≤ sr.2.cap by
    apply h
    intro sr hsr
    unfold MultiScaleAnomaly.init at hsr
    obtain ⟨x, hx, rfl⟩ := List.mem_map.mp hsr
    simp
  induction sigs with
  | nil => intro ms hms; simpa using hms
  | cons sig rest ih =>
    intro ms hms
    simp only [List.foldl_cons]
    apply ih
    intro sr hsr
    obtain ⟨x, hx, rfl⟩ := List.mem_map.mp hsr
    simp only
    rw [pushRing_cap]
    exact pushRing_length_le x.2 _ (hms x hx)

/-- C9. After any sequence of update_and_score calls starting from the
constructor, every ring holds at most its capacity; and each push evicts
exactly the oldest (head) entry when the capacity would be exceeded, else
appends without eviction. -/
theorem historyRing_bounded_fifo (scales : List ℕ) (knn_k : ℕ)
    (sigs : List KSignature) (sr : ℕ × HistoryRing)
    (hmem : sr ∈ (applyTracker scales knn_k sigs).hist) :
    sr.2.buf.length ≤ sr.2.cap ∧
    (∀ q : QDict,
      (sr.2.cap < sr.2.buf.length + 1 →
        (pushRing sr.2 q).buf = (sr.2.buf ++ [q]).drop 1) ∧
      (sr.2.buf.length + 1 ≤ sr.2.cap →
        (pushRing sr.2 q).buf = sr.2.buf ++ [q])) := by
  refine ⟨applyTracker_bounded scales knn_k sigs sr hmem, ?_⟩
  intro q
  constructor
  · intro hover
    unfold pushRing
    rw [if_pos (by simpa using hover)]
    simp [List.drop_one]
  · intro hfits
    unfold pushRing
    rw [if_neg (by simp; omega)]

/-- Witness for C9: a fresh tracker with one scale and no calls. -/
theorem historyRing_bounded_fifo_witness :
    ((64, (⟨[], 64⟩ : HistoryRing)).2.buf.length
        ≤ (64, (⟨[], 64⟩ : HistoryRing)).2.cap) ∧
    (∀ q : QDict,
      ((64, (⟨[], 64⟩ : HistoryRing)).2.cap
          < (64, (⟨[], 64⟩ : HistoryRing)).2.buf.length + 1 →
        (pushRing (64, (⟨[], 64⟩ : HistoryRing)).2 q).buf
          = ((64, (⟨[], 64⟩ : HistoryRing)).2.buf ++ [q]).drop 1) ∧
      ((64, (⟨[], 64⟩ : HistoryRing)).2.buf.length + 1
          ≤ (64, (⟨[], 64⟩ : HistoryRing)).2.cap →
        (pushRing (64, (⟨[], 64⟩ : HistoryRing)).2 q).buf
          = (64, (⟨[], 64⟩ : HistoryRing)).2.buf ++ [q])) :=
  historyRing_bounded_fifo [64] 5 [] (64, ⟨[], 64⟩)
    (by simp [applyTracker, MultiScaleAnomaly.init, sortNatAsc])

/-! ### Claim C2: behaviour on NaN and Infinity entries -/

/-- C2 counterexample. The claim that encodeSparseSignature sanitizes
NaN/Infinity entries to 0 fails on the code: at the concrete vector
[Infinity, 0, 0, 0] (k = 16, dimension 1, empty salts, clipping disabled)
the encoder produces a one-entry signature whose value is Infinity, while
the sanitized vector [0, 0, 0, 0] encodes to the empty signature, so the
two results differ. -/
theorem encodeSparseSignatureN_sanitize_counterexample :
    (encodeSparseSignatureN [.pinf, .fin 0, .fin 0, .fin 0] 16 ⟨1, [], [], true⟩ 0).toOption
      = some ⟨[0], [.pinf], .pinf⟩ ∧
    ([JNum.pinf, .fin 0, .fin 0, .fin 0].map sanitizeNum
      = [.fin 0, .fin 0, .fin 0, .fin 0]) ∧
    encodeSparseSignatureN [.pinf, .fin 0, .fin 0, .fin 0] 16 ⟨1, [], [], true⟩ 0
      ≠ encodeSparseSignatureN ([JNum.pinf, .fin 0, .fin 0, .fin 0].map sanitizeNum)
          16 ⟨1, [], [], true⟩ 0 := by
  have h1 : (encodeSparseSignatureN [.pinf, .fin 0, .fin 0, .fin 0] 16
      ⟨1, [], [], true⟩ 0).toOption = some ⟨[0], [.pinf], .pinf⟩ := by decide
  have hmap : [JNum.pinf, .fin 0, .fin 0, .fin 0].map sanitizeNum
      = [.fin 0, .fin 0, .fin 0, .fin 0] := by decide
  have h2 : (encodeSparseSignatureN [.fin 0, .fin 0, .fin 0, .fin 0] 16
      ⟨1, [], [], true⟩ 0).toOption = some ⟨[], [], .fin 0⟩ := by decide
  refine ⟨h1, hmap, fun heq => ?_⟩
  rw [hmap] at heq
  have hto := congrArg Except.toOption heq
  rw [h1, h2] at hto
  exact absurd hto (by decide)

/-- C2 amended. encodeSparseSignature never raises on NaN/Infinity entries
of the input vector (its only throws are the two configuration guards),
but it does not sanitize them: non-finite entries flow through the
median/MAD pipeline and can appear in the output (see the counterexample),
so the result generally differs from encoding the sanitized vector. -/
theorem encodeSparseSignatureN_total (vec : List JNum) (k : ℕ)
    (hashing : HashingConfig) (clip : ℚ) (hk : k ≠ 0) (hdim : hashing.dim ≠ 0) :
    ∃ s, encodeSparseSignatureN vec k hashing clip = .ok s := by
  unfold encodeSparseSignatureN
  rw [if_neg hk, if_neg hdim]
  exact ⟨_, rfl⟩

/-- Witness for the amended C2 at a vector containing NaN and Infinity. -/
theorem encodeSparseSignatureN_total_witness :
    ∃ s, encodeSparseSignatureN [.nan, .pinf, .fin 1] 16 ⟨1, [], [], true⟩ (95 / 100)
      = .ok s :=
  encodeSparseSignatureN_total [.nan, .pinf, .fin 1] 16 ⟨1, [], [], true⟩ (95 / 100)
    (by decide) (by decide)

/-! ### The placement tie-break (usad.js, encodeSparseSignature collision
handling) -/

/-- Any hashed index into a 1-dimensional table is slot 0. -/
theorem blake2bIndex_dim_one (i : ℕ) (key : List ℕ) : blake2bIndex i 1 key = 0 :=
  Nat.mod_one _

/-- getD of a zero block followed by a tail, inside the zero block. -/
theorem getD_replicate_append_lt (n i : ℕ) (l : List ℚ) (h : i < n) :
    (List.replicate n (0 : ℚ) ++ l).getD i 0 = 0 := by
  rw [List.getD_append _ _ _ _ (by simpa using h)]
  simp [List.getD, h]

/-- getD of a zero block followed by a tail, inside the tail. -/
theorem getD_replicate_append_ge (n i : ℕ) (l : List ℚ) :
    (List.replicate n (0 : ℚ) ++ l).getD (n + i) 0 = l.getD i 0 := by
  rw [List.getD_append_right _ _ _ _ (by simp)]
  simp

/-- A constant rational list is sorted. -/
theorem sorted_le_replicateQ (n : ℕ) (x : ℚ) :
    (List.replicate n x).Sorted (· ≤ ·) := by
  induction n with
  | zero => simp
  | succ m ih =>
    simp only [List.replicate_succ, List.sorted_cons]
    exact ⟨fun b hb => le_of_eq (List.eq_of_mem_replicate hb).symm, ih⟩

/-- The sorted order of the tie family: -1, then n zeros, then 1. -/
theorem sorted_tieTarget (n : ℕ) :
    ((-1 : ℚ) :: (List.replicate n 0 ++ [1])).Sorted (· ≤ ·) := by
  rw [List.sorted_cons]
  constructor
  · intro b hb
    rcases List.mem_append.mp hb with h | h
    · rw [List.eq_of_mem_replicate h]; norm_num
    · simp only [List.mem_singleton] at h; rw [h]; norm_num
  · rw [List.Sorted, List.pairwise_append]
    refine ⟨sorted_le_replicateQ n 0, by simp, ?_⟩
    intro a ha b hb
    rw [List.eq_of_mem_replicate ha]
    simp only [List.mem_singleton] at hb
    rw [hb]; norm_num

/-- The deviation list of the tie family is already sorted. -/
theorem sorted_devTarget (n : ℕ) :
    (List.replicate n (0 : ℚ) ++ [1, 1]).Sorted (· ≤ ·) := by
  rw [List.Sorted, List.pairwise_append]
  refine ⟨sorted_le_replicateQ n 0, by norm_num, ?_⟩
  intro a ha b hb
  rw [List.eq_of_mem_replicate ha]
  rcases List.mem_cons.mp hb with h | h
  · rw [h]; norm_num
  · simp only [List.mem_singleton] at h; rw [h]; norm_num

/-- The first tie-family vector is a permutation of its sorted order. -/
theorem perm_tieA (n : ℕ) :
    (List.replicate n (0 : ℚ) ++ [1, -1]).Perm
      ((-1) :: (List.replicate n 0 ++ [1])) := by
  have h1 : List.replicate n (0 : ℚ) ++ [1, -1]
      = (List.replicate n 0 ++ [1]) ++ [-1] := by
    rw [List.append_assoc]
    rfl
  rw [h1]
  exact List.perm_append_singleton _ _

/-- The second tie-family vector is a permutation of the same sorted order. -/
theorem perm_tieB (n : ℕ) :
    (List.replicate n (0 : ℚ) ++ [-1, 1]).Perm
      ((-1) :: (List.replicate n 0 ++ [1])) := by
  have h1 : List.replicate n (0 : ℚ) ++ [-1, 1]
      = (List.replicate n 0 ++ [-1]) ++ [1] := by
    rw [List.append_assoc]
    rfl
  rw [h1, ← List.cons_append]
  exact (List.perm_append_singleton _ _).append_right [1]

/-- The median of a list equals the middle of any sorted permutation. -/
theorem median_eq_of_sorted (arr m : List ℚ) (hp : arr.Perm m)
    (hs : m.Sorted (· ≤ ·)) :
    median arr = if m.length % 2 = 1 then m.getD ((m.length - 1) / 2) 0
      else (1 / 2) * (m.getD (m.length / 2) 0 + m.getD (m.length / 2 - 1) 0) := by
  have harr : sortQ arr = m :=
    List.eq_of_perm_of_sorted ((List.perm_insertionSort _ _).trans hp)
      (List.sorted_insertionSort _ _) hs
  simp only [median, harr]

/-- The median of any list that reorders n zeros with one 1 and one -1 is 0
for n at least 3. -/
theorem median_tie_core (n : ℕ) (hn : 3 ≤ n) (arr : List ℚ)
    (hp : arr.Perm ((-1) :: (List.replicate n 0 ++ [1]))) : median arr = 0 := by
  rw [median_eq_of_sorted arr _ hp (sorted_tieTarget n)]
  have hlen : ((-1 : ℚ) :: (List.replicate n 0 ++ [1])).length = n + 2 := by simp
  rw [hlen]
  by_cases hpar : (n + 2) % 2 = 1
  · rw [if_pos hpar]
    have hidx : (n + 2 - 1) / 2 = ((n + 1) / 2 - 1) + 1 := by omega
    rw [hidx, List.getD_cons_succ, getD_replicate_append_lt n _ _ (by omega)]
  · rw [if_neg hpar]
    have hidx1 : (n + 2) / 2 = (n / 2) + 1 := by omega
    rw [hidx1, show n / 2 + 1 - 1 = (n / 2 - 1) + 1 by omega,
      List.getD_cons_succ, List.getD_cons_succ,
      getD_replicate_append_lt n _ _ (by omega),
      getD_replicate_append_lt n _ _ (by omega)]
    norm_num

/-- Median of the first tie-family vector. -/
theorem median_tieA (n : ℕ) (hn : 3 ≤ n) :
    median (List.replicate n (0 : ℚ) ++ [1, -1]) = 0 :=
  median_tie_core n hn _ (perm_tieA n)

/-- Median of the second tie-family vector. -/
theorem median_tieB (n : ℕ) (hn : 3 ≤ n) :
    median (List.replicate n (0 : ℚ) ++ [-1, 1]) = 0 :=
  median_tie_core n hn _ (perm_tieB n)

/-- Median of the absolute deviations of the tie family. -/
theorem median_tieDev (n : ℕ) (hn : 3 ≤ n) :
    median (List.replicate n (0 : ℚ) ++ [1, 1]) = 0 := by
  rw [median_eq_of_sorted _ _ (List.Perm.refl _) (sorted_devTarget n)]
  have hlen : (List.replicate n (0 : ℚ) ++ [1, 1]).length = n + 2 := by simp
  rw [hlen]
  by_cases hpar : (n + 2) % 2 = 1
  · rw [if_pos hpar]
    rw [getD_replicate_append_lt n _ _ (by omega)]
  · rw [if_neg hpar]
    rw [getD_replicate_append_lt n _ _ (by omega),
      getD_replicate_append_lt n _ _ (by omega)]
    norm_num

/-- The exact magnitude of the tied robust z-scores of the family:
1 / (1.4826e-12), i.e. 10^16 / 14826. -/
def tieMag : ℚ := 10 ^ 16 / 14826

/-- The hashing configuration of the tie family: one slot, empty salts,
double hashing on, so the two hashed positions of every feature coincide. -/
def tieCfg : HashingConfig := ⟨1, [], [], true⟩

/-- Robust z-scores of the first tie-family vector. -/
theorem robustZ_tieA (n : ℕ) (hn : 3 ≤ n) :
    robustZ (List.replicate n 0 ++ [1, -1])
      = List.replicate n 0 ++ [tieMag, -tieMag] := by
  have hmed := median_tieA n hn
  have hdev : (List.replicate n (0 : ℚ) ++ [1, -1]).map (fun x => |x - 0|)
      = List.replicate n 0 ++ [1, 1] := by
    simp only [List.map_append, List.map_replicate, List.map_cons, List.map_nil]
    norm_num
  simp only [robustZ, hmed, hdev, median_tieDev n hn]
  simp only [List.map_append, List.map_replicate, List.map_cons, List.map_nil]
  norm_num [tieMag]

/-- Robust z-scores of the second tie-family vector. -/
theorem robustZ_tieB (n : ℕ) (hn : 3 ≤ n) :
    robustZ (List.replicate n 0 ++ [-1, 1])
      = List.replicate n 0 ++ [-tieMag, tieMag] := by
  have hmed := median_tieB n hn
  have hdev : (List.replicate n (0 : ℚ) ++ [-1, 1]).map (fun x => |x - 0|)
      = List.replicate n 0 ++ [1, 1] := by
    simp only [List.map_append, List.map_replicate, List.map_cons, List.map_nil]
    norm_num
  simp only [robustZ, hmed, hdev, median_tieDev n hn]
  simp only [List.map_append, List.map_replicate, List.map_cons, List.map_nil]
  norm_num [tieMag]

/-- A clip quantile of 0 is inactive. -/
theorem clipElev_zero (z : List ℚ) : clipElev z 0 = z := by
  unfold clipElev
  rw [if_neg]
  intro h
  exact lt_irrefl 0 h.1

/-- Inserting an index whose key is not larger than any present key appends
it at the end (the stable sort keeps earlier equal keys first). -/
theorem insertIdxDesc_append_last (key : ℕ → ℚ) (x : ℕ) (l : List ℕ)
    (h : ∀ y ∈ l, ¬ key y < key x) : insertIdxDesc key x l = l ++ [x] := by
  induction l with
  | nil => rfl
  | cons y ys ih =>
    simp only [insertIdxDesc]
    rw [if_neg (h y (List.mem_cons_self y ys)),
      ih (fun z hz => h z (List.mem_cons_of_mem y hz))]
    rfl

/-- Folding stable insertions of indices whose keys never strictly dominate
appends them in order. -/
theorem foldl_insertIdxDesc_const (key : ℕ → ℚ) (l acc : List ℕ)
    (h : ∀ x ∈ l, ∀ y ∈ acc ++ l, ¬ key y < key x) :
    l.foldl (fun acc x => insertIdxDesc key x acc) acc = acc ++ l := by
  induction l generalizing acc with
  | nil => simp
  | cons x xs ih =>
    simp only [List.foldl_cons]
    rw [insertIdxDesc_append_last key x acc
      (fun y hy => h x (List.mem_cons_self _ _) y (List.mem_append_left _ hy))]
    have hcond : ∀ x' ∈ xs, ∀ y ∈ (acc ++ [x]) ++ xs, ¬ key y < key x' := by
      intro x' hx' y hy
      apply h x' (List.mem_cons_of_mem _ hx')
      rcases List.mem_append.mp hy with h1 | h2
      · rcases List.mem_append.mp h1 with ha | hb
        · exact List.mem_append_left _ ha
        · simp only [List.mem_singleton] at hb
          subst hb
          exact List.mem_append_right _ (List.mem_cons_self _ _)
      · exact List.mem_append_right _ (List.mem_cons_of_mem _ h2)
    rw [ih (acc ++ [x]) hcond, List.append_assoc]
    rfl

/-- The ranking stage on the tie family keeps exactly the two tied features,
in input order (the stable sort cannot separate equal keys). -/
theorem retainIdxs_tie (n : ℕ) (hn : 1 ≤ n) (e1 e2 : ℚ) (h1 : 0 < |e1|)
    (h2 : |e2| = |e1|) :
    retainIdxs 2 (List.replicate n 0 ++ [e1, e2]) = [n, n + 1] := by
  obtain ⟨m, rfl⟩ : ∃ m, n = m + 1 := ⟨n - 1, by omega⟩
  have hlen : (List.replicate (m + 1) (0 : ℚ) ++ [e1, e2]).length = m + 3 := by
    simp
  have hk0 : |(List.replicate (m + 1) (0 : ℚ) ++ [e1, e2]).getD 0 0| = 0 := by
    rw [getD_replicate_append_lt _ _ _ (by omega)]; simp
  have hkn : |(List.replicate (m + 1) (0 : ℚ) ++ [e1, e2]).getD (m + 1) 0| = |e1| := by
    have := getD_replicate_append_ge (m + 1) 0 [e1, e2]
    simp only [Nat.add_zero] at this
    rw [this]
    rfl
  have hkn1 : |(List.replicate (m + 1) (0 : ℚ) ++ [e1, e2]).getD (m + 2) 0| = |e1| := by
    have := getD_replicate_append_ge (m + 1) 1 [e1, e2]
    rw [show m + 2 = m + 1 + 1 from rfl, this]
    exact h2
  unfold retainIdxs
  rw [if_pos (by rw [hlen]; omega), hlen]
  rw [show List.range (m + 3) = List.range (m + 1) ++ [m + 1, m + 2] from by
    rw [show m + 3 = (m + 2) + 1 from rfl, List.range_succ,
      show m + 2 = (m + 1) + 1 from rfl, List.range_succ, List.append_assoc]
    rfl]
  unfold sortIdxDesc
  rw [List.foldl_append]
  rw [foldl_insertIdxDesc_const _ _ [] (by
    intro x hx y hy
    simp only [List.nil_append] at hy
    have hxr := List.mem_range.mp hx
    have hyr := List.mem_range.mp hy
    rw [getD_replicate_append_lt _ _ _ hxr, getD_replicate_append_lt _ _ _ hyr]
    simp)]
  simp only [List.nil_append, List.foldl_cons, List.foldl_nil]
  rw [List.range_succ_eq_map]
  have hins1 : insertIdxDesc (fun i => |(List.replicate (m + 1) (0 : ℚ) ++ [e1, e2]).getD i 0|)
      (m + 1) (0 :: (List.range m).map Nat.succ)
      = (m + 1) :: 0 :: (List.range m).map Nat.succ := by
    simp only [insertIdxDesc]
    rw [if_pos]
    rw [hk0, hkn]
    exact h1
  rw [hins1]
  have hins2 : insertIdxDesc (fun i => |(List.replicate (m + 1) (0 : ℚ) ++ [e1, e2]).getD i 0|)
      (m + 2) ((m + 1) :: 0 :: (List.range m).map Nat.succ)
      = (m + 1) :: (m + 2) :: 0 :: (List.range m).map Nat.succ := by
    simp only [insertIdxDesc]
    rw [if_neg, if_pos]
    · rw [hk0, hkn1]; exact h1
    · rw [hkn, hkn1]; exact lt_irrefl _
  rw [hins2]
  rfl

/-- Helper: the slot choice under a double collision with a non-winning
magnitude is none (the incoming feature is dropped), stated with the hashed
positions abstracted. -/
theorem usadChoose_drop (hashing : HashingConfig) (st : EncState) (orig : ℕ)
    (v : ℚ) (p1 p2 ie : ℕ)
    (hb1 : blake2bIndex orig hashing.dim hashing.salt1 = p1)
    (hb2 : blake2bIndex orig hashing.dim hashing.salt2 = p2)
    (hdh : hashing.useDoubleHash = true)
    (hlk1 : st.taken.lookup p1 = some ie)
    (hlk2 : (st.taken.lookup p2).isNone = false)
    (hnlt : ¬ |st.val.getD ie 0| < |v|) :
    usadChoose hashing st orig v = none := by
  unfold usadChoose
  rw [hb1, hb2, hlk1, hdh, hlk2]
  exact if_neg hnlt


/-- The placement loop on the tie family: the first tied feature takes slot
0; the second collides at both hashed positions, loses the exact-magnitude
comparison (strictly-larger-wins), and is dropped with no further test. -/
theorem usadStep_fold_tie (n : ℕ) (e1 e2 : ℚ) (h1 : e1 ≠ 0) (h2 : e2 ≠ 0)
    (habs : ¬ |e1| < |e2|) :
    [n, n + 1].foldl (usadStep tieCfg (List.replicate n 0 ++ [e1, e2]))
      ⟨[], [], []⟩ = ⟨[0], [e1], [(0, 0)]⟩ := by
  have hg1 : (List.replicate n (0 : ℚ) ++ [e1, e2]).getD n 0 = e1 := by
    have := getD_replicate_append_ge n 0 [e1, e2]
    simpa using this
  have hg2 : (List.replicate n (0 : ℚ) ++ [e1, e2]).getD (n + 1) 0 = e2 :=
    getD_replicate_append_ge n 1 [e1, e2]
  have hstep1 : usadStep tieCfg (List.replicate n 0 ++ [e1, e2]) ⟨[], [], []⟩ n
      = ⟨[0], [e1], [(0, 0)]⟩ := by
    simp only [usadStep]
    rw [hg1, if_neg h1]
    have hch : usadChoose tieCfg ⟨[], [], []⟩ n e1 = some 0 := by
      have hb1 : blake2bIndex n tieCfg.dim tieCfg.salt1 = 0 :=
        blake2bIndex_dim_one n tieCfg.salt1
      unfold usadChoose
      rw [hb1]
      rfl
    rw [hch]
    rfl
  have hstep2 : usadStep tieCfg (List.replicate n 0 ++ [e1, e2])
      ⟨[0], [e1], [(0, 0)]⟩ (n + 1) = ⟨[0], [e1], [(0, 0)]⟩ := by
    simp only [usadStep]
    rw [hg2, if_neg h2]
    have hch : usadChoose tieCfg ⟨[0], [e1], [(0, 0)]⟩ (n + 1) e2 = none :=
      usadChoose_drop tieCfg ⟨[0], [e1], [(0, 0)]⟩ (n + 1) e2 0 0 0
        (blake2bIndex_dim_one (n + 1) tieCfg.salt1)
        (blake2bIndex_dim_one (n + 1) tieCfg.salt2)
        rfl rfl rfl habs
    rw [hch]
  simp only [List.foldl_cons, List.foldl_nil]
  rw [hstep1, hstep2]

/-- Full evaluation of the encoder on the first tie-family vector: the
earlier feature (value tieMag) keeps the single slot. -/
theorem encode_tieA (n : ℕ) (hn : 3 ≤ n) :
    encodeSparseSignature (List.replicate n 0 ++ [1, -1]) 2 tieCfg 0
      = .ok ⟨[0], [tieMag], tieMag * tieMag⟩ := by
  have helev : clipElev (robustZ (List.replicate n 0 ++ [1, -1])) 0
      = List.replicate n 0 ++ [tieMag, -tieMag] := by
    rw [clipElev_zero, robustZ_tieA n hn]
  have hret : retainIdxs 2 (List.replicate n 0 ++ [tieMag, -tieMag]) = [n, n + 1] :=
    retainIdxs_tie n (by omega) tieMag (-tieMag)
      (by norm_num [tieMag]) (by rw [abs_neg])
  have hfold := usadStep_fold_tie n tieMag (-tieMag)
    (by norm_num [tieMag]) (by norm_num [tieMag])
    (by rw [abs_neg]; exact lt_irrefl _)
  simp only [encodeSparseSignature, helev, hret, hfold]
  norm_num [buildSignature, sortPairsAsc, insertPairAsc, sumSq, tieCfg]

/-- Full evaluation of the encoder on the second tie-family vector: the
earlier feature (value -tieMag) keeps the single slot. -/
theorem encode_tieB (n : ℕ) (hn : 3 ≤ n) :
    encodeSparseSignature (List.replicate n 0 ++ [-1, 1]) 2 tieCfg 0
      = .ok ⟨[0], [-tieMag], tieMag * tieMag⟩ := by
  have helev : clipElev (robustZ (List.replicate n 0 ++ [-1, 1])) 0
      = List.replicate n 0 ++ [-tieMag, tieMag] := by
    rw [clipElev_zero, robustZ_tieB n hn]
  have hret : retainIdxs 2 (List.replicate n 0 ++ [-tieMag, tieMag]) = [n, n + 1] :=
    retainIdxs_tie n (by omega) (-tieMag) tieMag
      (by norm_num [tieMag]) (by rw [abs_neg])
  have hfold := usadStep_fold_tie n (-tieMag) tieMag
    (by norm_num [tieMag]) (by norm_num [tieMag])
    (by rw [abs_neg]; exact lt_irrefl _)
  simp only [encodeSparseSignature, helev, hret, hfold]
  norm_num [buildSignature, sortPairsAsc, insertPairAsc, sumSq, tieCfg]

/-- The tie-break discipline claimed by the specification, read as "the
contender with the larger auxiliary hash of (index, value) wins", stated on
the tie family: in each vector the features at original indices n and n + 1
collide at slot 0 with exactly equal magnitudes, the auxiliary hash h
distinguishes them, and the surviving value is the hash winner's. -/
def tieBreakLargerWins (h : ℕ → ℚ → ℕ) : Prop :=
  ∀ n, 3 ≤ n →
    (h n tieMag ≠ h (n + 1) (-tieMag) ∧
      (encodeSparseSignature (List.replicate n 0 ++ [1, -1]) 2 tieCfg 0).toOption.map
        SparseSignature.val
        = some [if h n tieMag < h (n + 1) (-tieMag) then -tieMag else tieMag]) ∧
    (h n (-tieMag) ≠ h (n + 1) tieMag ∧
      (encodeSparseSignature (List.replicate n 0 ++ [-1, 1]) 2 tieCfg 0).toOption.map
        SparseSignature.val
        = some [if h n (-tieMag) < h (n + 1) tieMag then tieMag else -tieMag])

/-- The same claim under the opposite reading, "the contender with the
smaller auxiliary hash wins". -/
def tieBreakSmallerWins (h : ℕ → ℚ → ℕ) : Prop :=
  ∀ n, 3 ≤ n →
    (h n tieMag ≠ h (n + 1) (-tieMag) ∧
      (encodeSparseSignature (List.replicate n 0 ++ [1, -1]) 2 tieCfg 0).toOption.map
        SparseSignature.val
        = some [if h (n + 1) (-tieMag) < h n tieMag then -tieMag else tieMag]) ∧
    (h n (-tieMag) ≠ h (n + 1) tieMag ∧
      (encodeSparseSignature (List.replicate n 0 ++ [-1, 1]) 2 tieCfg 0).toOption.map
        SparseSignature.val
        = some [if h (n + 1) tieMag < h n (-tieMag) then tieMag else -tieMag])

/-- C3, counterexample: no deterministic 64-bit auxiliary hash of (index,
value) decides the encoder's exact-magnitude ties, under either reading of
"the hash winner takes the slot". On the tie family the code always keeps
the earlier feature, which forces an infinite strictly monotone chain of
hash values in bounded naturals. -/
theorem tieBreak_hash_counterexample :
    ¬ ∃ h : ℕ → ℚ → ℕ, (∀ i v, h i v < 2 ^ 64) ∧
      (tieBreakLargerWins h ∨ tieBreakSmallerWins h) := by
  rintro ⟨h, hbound, hcase⟩
  have hA : ∀ n, 3 ≤ n →
      (encodeSparseSignature (List.replicate n 0 ++ [1, -1]) 2 tieCfg 0).toOption.map
        SparseSignature.val = some [tieMag] := by
    intro n hn
    rw [encode_tieA n hn]
    rfl
  have hB : ∀ n, 3 ≤ n →
      (encodeSparseSignature (List.replicate n 0 ++ [-1, 1]) 2 tieCfg 0).toOption.map
        SparseSignature.val = some [-tieMag] := by
    intro n hn
    rw [encode_tieB n hn]
    rfl
  have hnem : (tieMag : ℚ) ≠ -tieMag := by norm_num [tieMag]
  rcases hcase with hc | hc
  · -- larger hash wins: the incumbent surviving forces its hash to dominate
    have key1 : ∀ n, 3 ≤ n → h (n + 1) (-tieMag) < h n tieMag := by
      intro n hn
      obtain ⟨⟨hd, heq⟩, -⟩ := hc n hn
      rw [hA n hn] at heq
      by_cases hlt : h n tieMag < h (n + 1) (-tieMag)
      · rw [if_pos hlt] at heq
        have hx : (tieMag : ℚ) = -tieMag := by simpa using heq
        exact absurd hx hnem
      · omega
    have key2 : ∀ n, 3 ≤ n → h (n + 1) tieMag < h n (-tieMag) := by
      intro n hn
      obtain ⟨-, hd, heq⟩ := hc n hn
      rw [hB n hn] at heq
      by_cases hlt : h n (-tieMag) < h (n + 1) tieMag
      · rw [if_pos hlt] at heq
        have hx : (-tieMag : ℚ) = tieMag := by simpa using heq
        exact absurd hx.symm hnem
      · omega
    have hdec : ∀ m,
        (if (m + 1) % 2 = 0 then h (m + 1 + 3) tieMag else h (m + 1 + 3) (-tieMag))
        < (if m % 2 = 0 then h (m + 3) tieMag else h (m + 3) (-tieMag)) := by
      intro m
      by_cases hm : m % 2 = 0
      · rw [if_pos hm, if_neg (by omega)]
        rw [show m + 1 + 3 = m + 3 + 1 from by omega]
        exact key1 (m + 3) (by omega)
      · rw [if_neg hm, if_pos (by omega)]
        rw [show m + 1 + 3 = m + 3 + 1 from by omega]
        exact key2 (m + 3) (by omega)
    have hmono : ∀ m,
        (if m % 2 = 0 then h (m + 3) tieMag else h (m + 3) (-tieMag)) + m
        ≤ (if 0 % 2 = 0 then h (0 + 3) tieMag else h (0 + 3) (-tieMag)) := by
      intro m
      induction m with
      | zero => simp
      | succ k ih =>
        have := hdec k
        omega
    have hfin := hmono
      ((if 0 % 2 = 0 then h (0 + 3) tieMag else h (0 + 3) (-tieMag)) + 1)
    omega
  · -- smaller hash wins: the chain ascends and overflows the 64-bit bound
    have key1 : ∀ n, 3 ≤ n → h n tieMag < h (n + 1) (-tieMag) := by
      intro n hn
      obtain ⟨⟨hd, heq⟩, -⟩ := hc n hn
      rw [hA n hn] at heq
      by_cases hlt : h (n + 1) (-tieMag) < h n tieMag
      · rw [if_pos hlt] at heq
        have hx : (tieMag : ℚ) = -tieMag := by simpa using heq
        exact absurd hx hnem
      · omega
    have key2 : ∀ n, 3 ≤ n → h n (-tieMag) < h (n + 1) tieMag := by
      intro n hn
      obtain ⟨-, hd, heq⟩ := hc n hn
      rw [hB n hn] at heq
      by_cases hlt : h (n + 1) tieMag < h n (-tieMag)
      · rw [if_pos hlt] at heq
        have hx : (-tieMag : ℚ) = tieMag := by simpa using heq
        exact absurd hx.symm hnem
      · omega
    have hinc : ∀ m,
        (if m % 2 = 0 then h (m + 3) tieMag else h (m + 3) (-tieMag))
        < (if (m + 1) % 2 = 0 then h (m + 1 + 3) tieMag else h (m + 1 + 3) (-tieMag)) := by
      intro m
      by_cases hm : m % 2 = 0
      · rw [if_pos hm, if_neg (by omega)]
        rw [show m + 1 + 3 = m + 3 + 1 from by omega]
        exact key1 (m + 3) (by omega)
      · rw [if_neg hm, if_pos (by omega)]
        rw [show m + 1 + 3 = m + 3 + 1 from by omega]
        exact key2 (m + 3) (by omega)
    have hmono : ∀ m,
        (if 0 % 2 = 0 then h (0 + 3) tieMag else h (0 + 3) (-tieMag)) + m
        ≤ (if m % 2 = 0 then h (m + 3) tieMag else h (m + 3) (-tieMag)) := by
      intro m
      induction m with
      | zero => simp
      | succ k ih =>
        have := hinc k
        omega
    have hfin := hmono (2 ^ 64)
    rw [if_pos (by norm_num : (2 : ℕ) ^ 64 % 2 = 0)] at hfin
    have hb := hbound (2 ^ 64 + 3) tieMag
    omega

/-- C3, amended: when both hashed positions of an incoming nonzero feature
are occupied, the slot is resolved winner-take-more against the incumbent
of p1: a strictly larger incoming magnitude overwrites the incumbent's
slot, and otherwise — in particular on an exact magnitude tie — the state
is unchanged: the incoming feature is dropped and the incumbent keeps the
slot. No auxiliary tie-break hash is consulted. -/
theorem usadStep_winner_take_more (hashing : HashingConfig) (elev : List ℚ)
    (st : EncState) (orig ie : ℕ)
    (hv : elev.getD orig 0 ≠ 0)
    (hdh : hashing.useDoubleHash = true)
    (hp1 : st.taken.lookup (blake2bIndex orig hashing.dim hashing.salt1) = some ie)
    (hp2 : (st.taken.lookup (blake2bIndex orig hashing.dim hashing.salt2)).isNone
      = false) :
    (|st.val.getD ie 0| < |elev.getD orig 0| →
      usadStep hashing elev st orig
        = { st with
            pos := st.pos.set ie (blake2bIndex orig hashing.dim hashing.salt1),
            val := st.val.set ie (elev.getD orig 0) }) ∧
    (¬ |st.val.getD ie 0| < |elev.getD orig 0| →
      usadStep hashing elev st orig = st) := by
  constructor
  · intro hlt
    simp only [usadStep]
    rw [if_neg hv]
    have hch : usadChoose hashing st orig (elev.getD orig 0)
        = some (blake2bIndex orig hashing.dim hashing.salt1) := by
      unfold usadChoose
      simp [hp1, hdh, hp2]
      simpa using hlt
    rw [hch]
    show placeChosen st (blake2bIndex orig hashing.dim hashing.salt1)
      (elev.getD orig 0) = _
    unfold placeChosen
    rw [hp1]
  · intro hlt
    simp only [usadStep]
    rw [if_neg hv]
    have hch : usadChoose hashing st orig (elev.getD orig 0) = none := by
      unfold usadChoose
      simp [hp1, hdh, hp2]
      simpa using not_lt.mp hlt
    rw [hch]

/-- Witness for the amended C3 statement: a concrete double collision with
an exact magnitude tie leaves the state unchanged. -/
theorem usadStep_winner_take_more_witness :
    usadStep tieCfg (List.replicate 7 (0 : ℚ) ++ [-5]) ⟨[0], [5], [(0, 0)]⟩ 7
      = ⟨[0], [5], [(0, 0)]⟩ :=
  (usadStep_winner_take_more tieCfg (List.replicate 7 (0 : ℚ) ++ [-5])
      ⟨[0], [5], [(0, 0)]⟩ 7 0 (by decide) rfl
      (by rw [show blake2bIndex 7 tieCfg.dim tieCfg.salt1 = 0 from
            blake2bIndex_dim_one 7 tieCfg.salt1]
          rfl)
      (by rw [show blake2bIndex 7 tieCfg.dim tieCfg.salt2 = 0 from
            blake2bIndex_dim_one 7 tieCfg.salt2]
          rfl)).2
    (by decide)
